import Mathlib

/-!
# Producer/consumer task manager: bounded queue, logger and worker protocol

A shallow embedding of `src/tasks/taskqueue.c` and `src/tasks/taskman.c`
(with the declarations of `src/tasks/prv_tasks.h`).

* The linked list of `taskqueue.c` lives in an explicit heap of nodes: `malloc`
  yields a cell whose `next` field is indeterminate, `free` removes the cell,
  and reading through a pointer that is null, indeterminate or dangling is
  undefined behaviour (`none`).
* `uint32_t` and `uint16_t` fields are natural numbers reduced modulo their
  width at every increment.
* `log_event` formats its two optional fields with `sprintf` into five-byte
  buffers; a text that does not fit overruns the buffer, which is undefined
  behaviour: the call, and every call or step that contains it, is `none`.
* Threads are modelled by a step function on a system state: every critical
  section under `buffer_lock`, and every `log_event` call outside one, is one
  atomic step of the thread that runs it.
* Wall-clock time (the first field of a log line) is not modelled.
-/

namespace ProdCon

/-! ## Constants of `prv_tasks.h` -/

/-- Flag for no data (`#define NO_DATA -1`). -/
def NO_DATA : Int := -1

/-- Logname for a transaction ask event. -/
def ASK_EVENT : String := "Ask"
/-- Logname for a transaction recieve event. -/
def RECIEVE_EVENT : String := "Recieve"
/-- Logname for a transaction being added to queue event. -/
def WORK_EVENT : String := "Work"
/-- Logname for a sleep event. -/
def SLEEP_EVENT : String := "Sleep"
/-- Logname for a transaction complete event. -/
def COMPLETE_EVENT : String := "Complete"
/-- Logname for manager close event. -/
def END_EVENT : String := "End"

/-- Number of values of a `uint32_t`. -/
def UINT32_MOD : Nat := 4294967296
/-- Number of values of a `uint16_t`. -/
def UINT16_MOD : Nat := 65536

/-! ## The node heap -/

/-- A pointer to a queue node: `NULL`, an indeterminate value (the content of
memory that was never written), or the address of a cell. -/
inductive Ptr where
  | null : Ptr
  | indet : Ptr
  | addr (a : Nat) : Ptr
  deriving DecidableEq, Repr

/-- Data node in task queue (`tqueue_node_t`). -/
structure tqueue_node_t where
  next : Ptr
  n : Int
  deriving DecidableEq, Repr

/-- Task queue (`tqueue_t`): number of nodes, head and tail pointers. -/
structure tqueue_t where
  size : Nat
  head : Ptr
  tail : Ptr
  deriving DecidableEq, Repr

/-- The live `malloc`ed nodes, as a list of (address, content) cells. -/
abbrev Heap := List (Nat × tqueue_node_t)

/-- Content of the live cell at address `a`, if there is one. -/
def load : Heap → Nat → Option tqueue_node_t
  | [], _ => none
  | (b, v) :: h, a => if b = a then some v else load h a

/-- Overwrite the content of every cell at address `a`. -/
def store : Heap → Nat → tqueue_node_t → Heap
  | [], _, _ => []
  | (b, w) :: h, a, v => (b, if b = a then v else w) :: store h a v

/-- Remove the cell at address `a` (`free`). -/
def free : Heap → Nat → Heap
  | [], _ => []
  | (b, w) :: h, a => if b = a then free h a else (b, w) :: free h a

/-- Largest live address (0 for the empty heap). -/
def top : Heap → Nat
  | [] => 0
  | (b, _) :: h => max b (top h)

/-- Address returned by `malloc`: non-null and not live. -/
def malloc (h : Heap) : Nat := top h + 1

/-! ## `taskqueue.c` -/

/-- Creates an empty task queue: `(tqueue_t){0, NULL, NULL}`. -/
def qcreate : tqueue_t := ⟨0, Ptr.null, Ptr.null⟩

/-- Checks the size of a given queue. -/
def qsize (queue : tqueue_t) : Nat := queue.size

/-- Pop of `taskqueue.c`: on `size == 0` returns `0` and changes nothing;
otherwise reads the head node, moves `head` to its `next`, decrements `size`
and frees the node. -/
def qpop (h : Heap) (queue : tqueue_t) : Option (Int × Heap × tqueue_t) :=
  if queue.size = 0 then some (0, h, queue)
  else
    match queue.head with
    | Ptr.addr a =>
      match load h a with
      | some popped =>
        some (popped.n, free h a, { queue with head := popped.next, size := queue.size - 1 })
      | none => none
    | _ => none

/-- Push of `taskqueue.c`: allocates a node holding `n` (its `next` is left
unwritten), links it as head when `size == 0` and behind `tail` otherwise,
increments `size` and makes it the tail. -/
def qpush (h : Heap) (queue : tqueue_t) (n : Int) : Option (Heap × tqueue_t) :=
  let item := malloc h
  let h1 : Heap := (item, ⟨Ptr.indet, n⟩) :: h
  if queue.size = 0 then
    some (h1, { size := (queue.size + 1) % UINT32_MOD, head := Ptr.addr item, tail := Ptr.addr item })
  else
    match queue.tail with
    | Ptr.addr t =>
      match load h1 t with
      | some last =>
        some (store h1 t { last with next := Ptr.addr item },
              { queue with size := (queue.size + 1) % UINT32_MOD, tail := Ptr.addr item })
      | none => none
    | _ => none

/-- A call on the queue API. -/
inductive QOp where
  | push (n : Int) : QOp
  | pop : QOp
  deriving DecidableEq, Repr

/-- Values given to `qpush`, in call order. -/
def pushed : List QOp → List Int
  | [] => []
  | QOp.push n :: ops => n :: pushed ops
  | QOp.pop :: ops => pushed ops

/-- Run a sequence of queue calls; collects the return value of every `qpop`
call, in call order. -/
def qcalls : List QOp → Heap → tqueue_t → Option (List Int × Heap × tqueue_t)
  | [], h, q => some ([], h, q)
  | QOp.push n :: ops, h, q =>
    match qpush h q n with
    | some (h1, q1) => qcalls ops h1 q1
    | none => none
  | QOp.pop :: ops, h, q =>
    match qpop h q with
    | some (v, h1, q1) =>
      match qcalls ops h1 q1 with
      | some (rets, h2, q2) => some (v :: rets, h2, q2)
      | none => none
    | none => none

/-- Of the return values `rets` of the `qpop` calls of a sequence, those of the
calls made while the queue is non-empty. Whether the queue is non-empty is told
by counting the calls, not by the queue: `k` items are in it at the start, a
`qpush` adds one, a `qpop` made while the count is not zero removes one. -/
def on_nonempty : List QOp → Nat → List Int → List Int
  | [], _, _ => []
  | QOp.push _ :: ops, k, rets => on_nonempty ops (k + 1) rets
  | QOp.pop :: _, _, [] => []
  | QOp.pop :: ops, 0, _ :: rets => on_nonempty ops 0 rets
  | QOp.pop :: ops, k + 1, r :: rets => r :: on_nonempty ops k rets

/-- Number of `qpop` calls of a sequence made while the queue is non-empty, by
the same count. -/
def pops_on_nonempty : List QOp → Nat → Nat
  | [], _ => 0
  | QOp.push _ :: ops, k => pops_on_nonempty ops (k + 1)
  | QOp.pop :: ops, 0 => pops_on_nonempty ops 0
  | QOp.pop :: ops, k + 1 => pops_on_nonempty ops k + 1

/-- The number of items in the queue, by the same count, stays below 2^32
throughout the sequence. -/
def below_wrap : List QOp → Nat → Bool
  | [], _ => true
  | QOp.push _ :: ops, k => decide (k + 1 < UINT32_MOD) && below_wrap ops (k + 1)
  | QOp.pop :: ops, 0 => below_wrap ops 0
  | QOp.pop :: ops, k + 1 => below_wrap ops k

/-! ## Representation invariant of the queue -/

/-- The cells at addresses `as` form a linked chain carrying the values `xs`:
each cell holds its value and points to the cell after it; the `next` field of
the last cell is unconstrained (it was never written). -/
def Chain (h : Heap) : List Nat → List Int → Prop
  | [], [] => True
  | a :: as, x :: xs =>
    (∃ nx, load h a = some ⟨nx, x⟩ ∧ ∀ b, as.head? = some b → nx = Ptr.addr b) ∧ Chain h as xs
  | [], _ :: _ => False
  | _ :: _, [] => False

/-- The queue `q` in heap `h` holds exactly the items `xs`, oldest first:
`size` is their number and, when there are any, `head` and `tail` point at the
first and last cell of a chain of distinct live cells carrying them. -/
def Holds (h : Heap) (q : tqueue_t) (xs : List Int) : Prop :=
  q.size = xs.length ∧
  ∃ as : List Nat, as.Nodup ∧ Chain h as xs ∧
    (∀ a, as.head? = some a → q.head = Ptr.addr a) ∧
    (∀ t, as.getLast? = some t → q.tail = Ptr.addr t)

/-! ## `taskman.c`: the logger -/

/-- Statistics tracker (`tmreport_t`): five `uint32_t` event counters. -/
structure tmreport_t where
  works : Nat
  asks : Nat
  recieves : Nat
  completes : Nat
  sleeps : Nat
  deriving DecidableEq, Repr

/-- One line of the log file: the arguments `log_event` hands to `fprintf`
after the time stamp. -/
structure log_line where
  id : Nat
  qstr : String
  event : String
  nstr : String
  deriving DecidableEq, Repr

/-- Shared config (`tconf_t`): log file, capacity, queue, master counters
(`uint32_t`) and the per-thread completion counters (`uint16_t*`). The locks
and condition variables are represented by the atomicity of the steps below. -/
structure tconf_t where
  logfile : List log_line
  max_buffer_size : Nat
  buffer : tqueue_t
  master_report : tmreport_t
  thread_reports : List Nat
  deriving DecidableEq, Repr

/-- Task manager (`struct task_manager`). -/
structure tman_t where
  thread_count : Nat
  config : tconf_t
  complete : Bool
  deriving DecidableEq, Repr

/-- Worker handle (`tsub_t`): the thread id; its `config` and `complete`
pointers refer to the one manager of the process. -/
structure tsub_t where
  id : Nat
  deriving DecidableEq, Repr

/-- Log an event to the statistics reports: a chain of `strcmp` tests; a
Complete event also increments `thread_reports[id - 1]` (`id - 1` computed in
`uint32_t`), which is undefined outside the array. -/
def log_event_to_report (conf : tconf_t) (id : Nat) (event : String) : Option tconf_t :=
  if event = WORK_EVENT then
    some { conf with master_report :=
      { conf.master_report with works := (conf.master_report.works + 1) % UINT32_MOD } }
  else if event = ASK_EVENT then
    some { conf with master_report :=
      { conf.master_report with asks := (conf.master_report.asks + 1) % UINT32_MOD } }
  else if event = RECIEVE_EVENT then
    some { conf with master_report :=
      { conf.master_report with recieves := (conf.master_report.recieves + 1) % UINT32_MOD } }
  else if event = COMPLETE_EVENT then
    match conf.thread_reports[(id + UINT32_MOD - 1) % UINT32_MOD]? with
    | some c =>
      some { conf with
        master_report :=
          { conf.master_report with completes := (conf.master_report.completes + 1) % UINT32_MOD },
        thread_reports :=
          conf.thread_reports.set ((id + UINT32_MOD - 1) % UINT32_MOD) ((c + 1) % UINT16_MOD) }
    | none => none
  else if event = SLEEP_EVENT then
    some { conf with master_report :=
      { conf.master_report with sleeps := (conf.master_report.sleeps + 1) % UINT32_MOD } }
  else some conf

/-- Text of `printf("%<w>d", v)`: the decimal numeral of `v`, padded with
blanks on the left to at least `w` characters. -/
def fmt_d (w : Nat) (v : Int) : String :=
  String.mk (List.replicate (w - (toString v).length) ' ') ++ toString v

/-- Text left in a `char[5]` by `sprintf`: the formatted text when it fits with
its terminating NUL; `none` when the write runs past the end of the buffer,
which is undefined behaviour. -/
def sprintf5 (s : String) : Option String :=
  if s.length + 1 ≤ 5 then some s else none

/-- The `qstr` buffer of `log_event`: initialised to four blanks, overwritten
by `sprintf(qstr, "Q=%2d", q)` when `q != NO_DATA`. -/
def qstr_of (q : Int) : Option String :=
  if q ≠ NO_DATA then sprintf5 ("Q=" ++ fmt_d 2 q) else some "    "

/-- The `nstr` buffer of `log_event`: initialised to four blanks, overwritten
by `sprintf(nstr, "%4d", n)` when `n != NO_DATA`. -/
def nstr_of (n : Int) : Option String :=
  if n ≠ NO_DATA then sprintf5 (fmt_d 4 n) else some "    "

/-- Log an event to the log file: format `q` and `n` unless they are
`NO_DATA`, update the report, append the line. The call is undefined (`none`)
when either `sprintf` overruns its buffer, and when the report update is. -/
def log_event (conf : tconf_t) (id : Nat) (q : Int) (event : String) (n : Int) :
    Option tconf_t :=
  match qstr_of q with
  | some qstr =>
    match nstr_of n with
    | some nstr =>
      match log_event_to_report conf id event with
      | some conf1 => some { conf1 with logfile := conf1.logfile ++ [⟨id, qstr, event, nstr⟩] }
      | none => none
    | none => none
  | none => none

/-- Run a list of `log_event` calls `(id, q, event, n)` in order. -/
def log_events : tconf_t → List (Nat × Int × String × Int) → Option tconf_t
  | conf, [] => some conf
  | conf, (id, q, event, n) :: calls =>
    match log_event conf id q event n with
    | some conf1 => log_events conf1 calls
    | none => none

/-! ## `taskman.c`: workers and manager -/

/-- Conversion of a `uint32_t` to `int`, as happens when `qsize(...)` is passed
for the `int q` parameter of `log_event`. -/
def to_int (u : Nat) : Int :=
  if u < 2147483648 then (u : Int) else (u : Int) - 4294967296

/-- The process memory the task manager works on: node heap and manager. -/
structure World where
  heap : Heap
  manager : tman_t
  deriving DecidableEq, Repr

/-- What a call that can block has done when it stops running: it has
returned, or it waits on a condition variable (the mutex released) and will
run its loop test again when woken. -/
inductive Call (α : Type) where
  | returned (a : α) (w : World) : Call α
  | waiting (w : World) : Call α
  deriving DecidableEq, Repr

/-- The critical section of `consumer_request`, from the test of its `while`
loop on: with an empty queue return `NO_DATA` if the manager has closed and
wait otherwise; else pop, log the Recieve event with the new queue size, and
return the item. -/
def consumer_request_locked (w : World) (sub : tsub_t) : Option (Call Int) :=
  if qsize w.manager.config.buffer = 0 then
    if w.manager.complete then some (Call.returned NO_DATA w)
    else some (Call.waiting w)
  else
    match qpop w.heap w.manager.config.buffer with
    | some (n, h1, q1) =>
      match log_event { w.manager.config with buffer := q1 } sub.id (to_int (qsize q1))
          RECIEVE_EVENT n with
      | some conf2 => some (Call.returned n ⟨h1, { w.manager with config := conf2 }⟩)
      | none => none
    | none => none

/-- Worker thread request access to new data: log the Ask event, then enter
the critical section. -/
def consumer_request (w : World) (sub : tsub_t) : Option (Call Int) :=
  match log_event w.manager.config sub.id NO_DATA ASK_EVENT NO_DATA with
  | some conf1 => consumer_request_locked ⟨w.heap, { w.manager with config := conf1 }⟩ sub
  | none => none

/-- Body of the loop of `consumer_loop` after an item `n` was returned:
`Trans(n)` (no effect on the manager), then log the Complete event. -/
def consumer_complete (w : World) (sub : tsub_t) (n : Int) : Option World :=
  match log_event w.manager.config sub.id NO_DATA COMPLETE_EVENT n with
  | some conf1 => some ⟨w.heap, { w.manager with config := conf1 }⟩
  | none => none

/-- The part of `tman_publish` from the test of its `while` loop on: wait
while the queue is at `max_buffer_size`, else push. -/
def tman_publish_locked (w : World) (n : Int) : Option (Call Unit) :=
  if w.manager.config.max_buffer_size ≤ qsize w.manager.config.buffer then
    some (Call.waiting w)
  else
    match qpush w.heap w.manager.config.buffer n with
    | some (h1, q1) =>
      some (Call.returned () ⟨h1, { w.manager with config := { w.manager.config with buffer := q1 } }⟩)
    | none => none

/-- Publish of `taskman.c`: under `buffer_lock`, log the Work event with the
current queue size, then wait for room and push. -/
def tman_publish (w : World) (n : Int) : Option (Call Unit) :=
  match log_event w.manager.config 0 (to_int (qsize w.manager.config.buffer)) WORK_EVENT n with
  | some conf1 => tman_publish_locked ⟨w.heap, { w.manager with config := conf1 }⟩ n
  | none => none

/-- Sleep of `taskman.c`: log the Sleep event; `Sleep(length)` itself has no
effect on the manager. -/
def tman_sleep (w : World) (length : Int) : Option World :=
  match log_event w.manager.config 0 NO_DATA SLEEP_EVENT length with
  | some conf1 => some ⟨w.heap, { w.manager with config := conf1 }⟩
  | none => none

/-- First statement of `tman_close`: log the End event. -/
def tman_close_log (w : World) : Option World :=
  match log_event w.manager.config 0 NO_DATA END_EVENT NO_DATA with
  | some conf1 => some ⟨w.heap, { w.manager with config := conf1 }⟩
  | none => none

/-- Critical section of `tman_close`: set the control flag (and broadcast). -/
def tman_close_flag (w : World) : World :=
  ⟨w.heap, { w.manager with complete := true }⟩

/-! ## The threads -/

/-- Where a worker thread stands in `consumer_loop`. -/
inductive wpc where
  /-- about to call `consumer_request`, whose first statement logs Ask -/
  | asking : wpc
  /-- inside `consumer_request`, at the test of its `while` loop (on entry to
  the critical section, or woken from `pthread_cond_wait`) -/
  | requesting : wpc
  /-- holding the item `n` that `consumer_request` returned, `n != NO_DATA`:
  `Trans(n)` and the Complete event are due -/
  | working (n : Int) : wpc
  /-- left the loop; the thread has ended -/
  | exited : wpc
  deriving DecidableEq, Repr

/-- A worker thread: its handle and its position. -/
structure Worker where
  sub : tsub_t
  pc : wpc
  deriving DecidableEq, Repr

/-- Where the producer (the thread calling the `tman_` functions) stands. -/
inductive ppc where
  /-- between calls -/
  | running : ppc
  /-- inside `tman_publish(n)`, waiting on `full_buffer_cond` -/
  | publishing (n : Int) : ppc
  /-- inside `tman_close`, End event logged -/
  | closing : ppc
  /-- inside `tman_close`, flag set, joining the workers -/
  | joining : ppc
  /-- inside `tman_close`, every worker joined -/
  | closed : ppc
  deriving DecidableEq, Repr

/-- State of the whole process. -/
structure Sys where
  world : World
  producer : ppc
  workers : List Worker
  deriving DecidableEq, Repr

/-- Initialisation of `taskman.c`. The manager and the `thread_reports` array
come from `malloc` and `tman_init` writes neither `manager->complete` nor the
array, so their content is what the memory held: `raw_complete` and
`raw_reports i` (for element `i`). The master report is cleared by `memset`,
the queue is `qcreate()`, the log file opened under `logname` starts empty, and
worker `i` is spawned with id `i + 1`. -/
def tman_init (buffer_size thread_count : Nat) (raw_complete : Bool) (raw_reports : Nat → Nat) :
    Sys :=
  { world :=
      { heap := [],
        manager :=
          { thread_count := thread_count,
            config :=
              { logfile := [],
                max_buffer_size := buffer_size,
                buffer := qcreate,
                master_report := ⟨0, 0, 0, 0, 0⟩,
                thread_reports :=
                  (List.range thread_count).map (fun i => raw_reports i % UINT16_MOD) },
            complete := raw_complete } },
    producer := ppc.running,
    workers := (List.range thread_count).map (fun i => ⟨⟨i + 1⟩, wpc.asking⟩) }

/-- The atomic steps of the threads. -/
inductive Action where
  /-- the producer calls `tman_publish(n)` and runs it up to its return or its wait -/
  | publish (n : Int) : Action
  /-- the producer, woken inside `tman_publish`, tests the loop again -/
  | retry : Action
  /-- the producer calls `tman_sleep(n)` -/
  | sleep (n : Int) : Action
  /-- the producer calls `tman_close`: the End event -/
  | close_log : Action
  /-- the critical section of `tman_close` that sets the flag -/
  | close_flag : Action
  /-- the joins of `tman_close` complete (every worker has ended) -/
  | join : Action
  /-- worker `i` calls `consumer_request`: the Ask event -/
  | ask (i : Nat) : Action
  /-- worker `i` runs the critical section of `consumer_request` -/
  | request (i : Nat) : Action
  /-- worker `i` runs `Trans` and logs Complete -/
  | complete (i : Nat) : Action
  deriving DecidableEq, Repr

/-- Is this worker thread over. -/
def Worker.exited (wk : Worker) : Bool :=
  match wk.pc with
  | wpc.exited => true
  | _ => false

/-- One atomic step; `none` when the action is not the next thing its thread
does, or when it faults (a bad dereference, a counter outside `thread_reports`,
an overrun of a text buffer of `log_event`). -/
def step (s : Sys) : Action → Option Sys
  | Action.publish n =>
    match s.producer with
    | ppc.running =>
      match tman_publish s.world n with
      | some (Call.returned _ w) => some { s with world := w }
      | some (Call.waiting w) => some { s with world := w, producer := ppc.publishing n }
      | none => none
    | _ => none
  | Action.retry =>
    match s.producer with
    | ppc.publishing n =>
      match tman_publish_locked s.world n with
      | some (Call.returned _ w) => some { s with world := w, producer := ppc.running }
      | some (Call.waiting w) => some { s with world := w }
      | none => none
    | _ => none
  | Action.sleep n =>
    match s.producer with
    | ppc.running =>
      match tman_sleep s.world n with
      | some w => some { s with world := w }
      | none => none
    | _ => none
  | Action.close_log =>
    match s.producer with
    | ppc.running =>
      match tman_close_log s.world with
      | some w => some { s with world := w, producer := ppc.closing }
      | none => none
    | _ => none
  | Action.close_flag =>
    match s.producer with
    | ppc.closing => some { s with world := tman_close_flag s.world, producer := ppc.joining }
    | _ => none
  | Action.join =>
    match s.producer with
    | ppc.joining =>
      if s.workers.all Worker.exited then some { s with producer := ppc.closed } else none
    | _ => none
  | Action.ask i =>
    match s.workers[i]? with
    | some wk =>
      match wk.pc with
      | wpc.asking =>
        match log_event s.world.manager.config wk.sub.id NO_DATA ASK_EVENT NO_DATA with
        | some conf1 =>
          some { s with
            world := ⟨s.world.heap, { s.world.manager with config := conf1 }⟩,
            workers := s.workers.set i { wk with pc := wpc.requesting } }
        | none => none
      | _ => none
    | none => none
  | Action.request i =>
    match s.workers[i]? with
    | some wk =>
      match wk.pc with
      | wpc.requesting =>
        match consumer_request_locked s.world wk.sub with
        | some (Call.returned n w) =>
          some { s with
            world := w,
            workers := s.workers.set i
              { wk with pc := if n ≠ NO_DATA then wpc.working n else wpc.exited } }
        | some (Call.waiting w) => some { s with world := w }
        | none => none
      | _ => none
    | none => none
  | Action.complete i =>
    match s.workers[i]? with
    | some wk =>
      match wk.pc with
      | wpc.working n =>
        match consumer_complete s.world wk.sub n with
        | some w => some { s with world := w, workers := s.workers.set i { wk with pc := wpc.asking } }
        | none => none
      | _ => none
    | none => none

/-- Run a schedule of atomic steps. -/
def run : Sys → List Action → Option Sys
  | s, [] => some s
  | s, a :: tr =>
    match step s a with
    | some s1 => run s1 tr
    | none => none

/-- The items handed to `tman_publish` in a schedule. -/
def publishes : List Action → List Int
  | [] => []
  | Action.publish n :: tr => n :: publishes tr
  | _ :: tr => publishes tr

/-- Number of Complete lines in a log. -/
def completes_logged : List log_line → Nat
  | [] => 0
  | l :: ls => (if l.event = COMPLETE_EVENT then 1 else 0) + completes_logged ls

/-! ## Reading a log line -/

/-- The text `s` shows the number `v` right-justified in `w` characters: it is
`w` characters long and consists of blanks followed by the decimal numeral of
`v`. -/
def right_justified (w : Nat) (v : Int) (s : String) : Prop :=
  s.length = w ∧ s = String.mk (List.replicate (w - (toString v).length) ' ') ++ toString v

/-- The world a call has led to, whether it returned or waits. -/
def Call.world {α : Type} : Call α → World
  | Call.returned _ w => w
  | Call.waiting w => w

/-- The value field `ns` of a log line shows `n`: four blanks for `NO_DATA`,
else the number right-justified in 4 characters. -/
def shows_value (n : Int) (ns : String) : Prop :=
  (n = NO_DATA → ns = "    ") ∧ (n ≠ NO_DATA → right_justified 4 n ns)

/-- The queue field `qs` of a log line shows `q`: four blanks for `NO_DATA`,
else `Q=` followed by the number right-justified in 2 characters. -/
def shows_size (q : Int) (qs : String) : Prop :=
  (q = NO_DATA → qs = "    ") ∧ (q ≠ NO_DATA → ∃ t, qs = "Q=" ++ t ∧ right_justified 2 q t)

/-! ## What a step preserves -/

/-- The second world has the flag, the capacity, the master Complete counter
and the number of logged Complete lines of the first. -/
def WSame (w w2 : World) : Prop :=
  w2.manager.complete = w.manager.complete ∧
  w2.manager.config.max_buffer_size = w.manager.config.max_buffer_size ∧
  w2.manager.config.master_report.completes = w.manager.config.master_report.completes ∧
  completes_logged w2.manager.config.logfile = completes_logged w.manager.config.logfile

/-- One for a worker that holds a dequeued item whose Complete event is due,
else zero. -/
def holding (wk : Worker) : Nat :=
  match wk.pc with
  | wpc.working _ => 1
  | _ => 0

/-- Number of workers that hold a dequeued item whose Complete event is due. -/
def inflight : List Worker → Nat
  | [] => 0
  | wk :: ws => holding wk + inflight ws

/-- One when the producer waits inside `tman_publish` with its item not yet
pushed, else zero. -/
def unpushed : ppc → Nat
  | ppc.publishing _ => 1
  | _ => 0

/-- What one atomic step does, told by the items the queue holds before (`xs`)
and after (`xs2`), the positions of the threads, the flag, the capacity, the
master Complete counter and the number of Complete lines. -/
def Effect (s : Sys) (xs : List Int) (s2 : Sys) (xs2 : List Int) : Action → Prop
  | Action.publish n =>
    s.producer = ppc.running ∧ s2.workers = s.workers ∧ WSame s.world s2.world ∧
    ((xs.length < s.world.manager.config.max_buffer_size ∧ xs2 = xs ++ [n] ∧
        s2.producer = ppc.running) ∨
     (s.world.manager.config.max_buffer_size ≤ xs.length ∧ xs2 = xs ∧
        s2.producer = ppc.publishing n))
  | Action.retry =>
    ∃ n, s.producer = ppc.publishing n ∧ s2.workers = s.workers ∧ WSame s.world s2.world ∧
    ((xs.length < s.world.manager.config.max_buffer_size ∧ xs2 = xs ++ [n] ∧
        s2.producer = ppc.running) ∨
     (s.world.manager.config.max_buffer_size ≤ xs.length ∧ xs2 = xs ∧
        s2.producer = ppc.publishing n))
  | Action.sleep _ =>
    s.producer = ppc.running ∧ s2.producer = ppc.running ∧ s2.workers = s.workers ∧
    WSame s.world s2.world ∧ xs2 = xs
  | Action.close_log =>
    s.producer = ppc.running ∧ s2.producer = ppc.closing ∧ s2.workers = s.workers ∧
    WSame s.world s2.world ∧ xs2 = xs
  | Action.close_flag =>
    s.producer = ppc.closing ∧ s2.producer = ppc.joining ∧ s2.workers = s.workers ∧ xs2 = xs ∧
    s2.world.manager.complete = true ∧
    s2.world.manager.config.max_buffer_size = s.world.manager.config.max_buffer_size ∧
    s2.world.manager.config.master_report.completes
      = s.world.manager.config.master_report.completes ∧
    completes_logged s2.world.manager.config.logfile
      = completes_logged s.world.manager.config.logfile
  | Action.join =>
    s.producer = ppc.joining ∧ s2.producer = ppc.closed ∧
    (∀ wk ∈ s.workers, wk.pc = wpc.exited) ∧ s2.workers = s.workers ∧
    WSame s.world s2.world ∧ xs2 = xs
  | Action.ask i =>
    ∃ wk, s.workers[i]? = some wk ∧ wk.pc = wpc.asking ∧
      s2.workers = s.workers.set i { wk with pc := wpc.requesting } ∧
      s2.producer = s.producer ∧ WSame s.world s2.world ∧ xs2 = xs
  | Action.request i =>
    ∃ wk, s.workers[i]? = some wk ∧ wk.pc = wpc.requesting ∧
      s2.producer = s.producer ∧ WSame s.world s2.world ∧
      ((xs = [] ∧ s.world.manager.complete = true ∧ xs2 = [] ∧
          s2.workers = s.workers.set i { wk with pc := wpc.exited }) ∨
       (xs = [] ∧ s.world.manager.complete = false ∧ xs2 = [] ∧ s2.workers = s.workers) ∨
       (∃ x, xs = x :: xs2 ∧
          s2.workers = s.workers.set i
            { wk with pc := if x ≠ NO_DATA then wpc.working x else wpc.exited }))
  | Action.complete i =>
    ∃ wk n, s.workers[i]? = some wk ∧ wk.pc = wpc.working n ∧
      s2.workers = s.workers.set i { wk with pc := wpc.asking } ∧
      s2.producer = s.producer ∧ xs2 = xs ∧
      s2.world.manager.complete = s.world.manager.complete ∧
      s2.world.manager.config.max_buffer_size = s.world.manager.config.max_buffer_size ∧
      s2.world.manager.config.master_report.completes
        = (s.world.manager.config.master_report.completes + 1) % UINT32_MOD ∧
      completes_logged s2.world.manager.config.logfile
        = completes_logged s.world.manager.config.logfile + 1

/-- Accounting invariant of a run whose manager started with the flag clear
and in which `NO_DATA` was never published. `P` are the items handed to
`tman_publish` so far and `xs` the items the queue holds. -/
def Inv (N : Nat) (P : List Int) (s : Sys) (xs : List Int) : Prop :=
  s.workers.length = N ∧
  P.length = completes_logged s.world.manager.config.logfile + inflight s.workers + xs.length
    + unpushed s.producer ∧
  s.world.manager.config.master_report.completes
    = completes_logged s.world.manager.config.logfile % UINT32_MOD ∧
  (∀ x ∈ xs, x ≠ NO_DATA) ∧
  (∀ n, s.producer = ppc.publishing n → n ≠ NO_DATA) ∧
  (s.world.manager.complete = true → s.producer = ppc.joining ∨ s.producer = ppc.closed) ∧
  (∀ wk ∈ s.workers, wk.pc = wpc.exited → s.world.manager.complete = true ∧ xs = []) ∧
  (s.producer = ppc.closed → ∀ wk ∈ s.workers, wk.pc = wpc.exited)

/-! ## Heap lemmas -/

theorem load_le_top (h : Heap) (a : Nat) (v : tqueue_node_t) (hl : load h a = some v) :
    a ≤ top h := by
  induction h with
  | nil => simp [load] at hl
  | cons c h ih =>
    obtain ⟨b, w⟩ := c
    simp only [load] at hl
    simp only [top]
    by_cases hb : b = a
    · subst hb; exact le_max_left _ _
    · rw [if_neg hb] at hl
      exact le_trans (ih hl) (le_max_right _ _)

theorem load_malloc (h : Heap) : load h (malloc h) = none := by
  cases hl : load h (malloc h) with
  | none => rfl
  | some v =>
    have := load_le_top h _ v hl
    simp [malloc] at this

theorem load_store (h : Heap) (a b : Nat) (v : tqueue_node_t) :
    load (store h a v) b = if a = b then (load h a).map (fun _ => v) else load h b := by
  induction h with
  | nil => simp [load, store]
  | cons c h ih =>
    obtain ⟨c, w⟩ := c
    simp only [store, load, ih]
    split_ifs <;> simp_all

theorem load_free (h : Heap) (a b : Nat) :
    load (free h a) b = if a = b then none else load h b := by
  induction h with
  | nil => simp [load, free]
  | cons c h ih =>
    obtain ⟨c, w⟩ := c
    simp only [free]
    split_ifs <;> simp_all [load]

/-! ## Chains -/

theorem chain_length (h : Heap) : ∀ (as : List Nat) (xs : List Int), Chain h as xs →
    as.length = xs.length
  | [], [], _ => rfl
  | a :: as, x :: xs, hc => by
    simp only [Chain] at hc
    simp [chain_length h as xs hc.2]
  | [], _ :: _, hc => by simp [Chain] at hc
  | _ :: _, [], hc => by simp [Chain] at hc

theorem chain_live (h : Heap) : ∀ (as : List Nat) (xs : List Int), Chain h as xs →
    ∀ a ∈ as, ∃ v, load h a = some v
  | [], [], _ => by simp
  | a :: as, x :: xs, hc => by
    simp only [Chain] at hc
    intro b hb
    rcases List.mem_cons.mp hb with rfl | hb
    · obtain ⟨nx, hl, _⟩ := hc.1
      exact ⟨_, hl⟩
    · exact chain_live h as xs hc.2 b hb
  | [], _ :: _, hc => by simp [Chain] at hc
  | _ :: _, [], hc => by simp [Chain] at hc

theorem chain_frame (h h2 : Heap) : ∀ (as : List Nat) (xs : List Int), Chain h as xs →
    (∀ a ∈ as, load h2 a = load h a) → Chain h2 as xs
  | [], [], _, _ => by simp [Chain]
  | a :: as, x :: xs, hc, hf => by
    simp only [Chain] at hc ⊢
    refine ⟨?_, chain_frame h h2 as xs hc.2 (fun b hb => hf b (List.mem_cons_of_mem _ hb))⟩
    rw [hf a (List.mem_cons_self _ _)]
    exact hc.1
  | [], _ :: _, hc, _ => by simp [Chain] at hc
  | _ :: _, [], hc, _ => by simp [Chain] at hc

theorem chain_snoc (h h2 : Heap) (t item : Nat) (n : Int) (nx : Ptr)
    (hi : load h2 item = some ⟨nx, n⟩)
    (ht : ∀ last, load h t = some last → load h2 t = some { last with next := Ptr.addr item }) :
    ∀ (as : List Nat) (xs : List Int), Chain h as xs → as.Nodup → as.getLast? = some t →
      (∀ b ∈ as, b ≠ t → load h2 b = load h b) →
      Chain h2 (as ++ [item]) (xs ++ [n])
  | [], _, _, _, hl, _ => by simp at hl
  | [a], [x], hc, _, hl, _ => by
    simp at hl
    subst hl
    simp only [Chain] at hc
    obtain ⟨⟨nx0, hl0, _⟩, _⟩ := hc
    simp only [List.singleton_append, Chain, List.head?_cons, Option.some.injEq, forall_eq',
      List.head?_nil, and_true]
    exact ⟨⟨_, ht _ hl0, by intro b hb; simp at hb; rw [hb]⟩, ⟨nx, hi, by simp⟩⟩
  | [_], [], hc, _, _, _ => by simp [Chain] at hc
  | [_], _ :: _ :: _, hc, _, _, _ => by simp [Chain] at hc
  | a :: b :: as, [], hc, _, _, _ => by simp [Chain] at hc
  | a :: b :: as, x :: xs, hc, hnd, hl, hf => by
    simp only [Chain] at hc
    obtain ⟨⟨nx0, hl0, hnx⟩, hrest⟩ := hc
    have hl2 : (b :: as).getLast? = some t := by simpa [List.getLast?_cons_cons] using hl
    have htm : t ∈ b :: as := List.mem_of_getLast?_eq_some hl2
    have hat : a ≠ t := by
      intro hEq
      subst hEq
      exact (List.nodup_cons.mp hnd).1 htm
    have ih := chain_snoc h h2 t item n nx hi ht (b :: as) xs hrest (List.nodup_cons.mp hnd).2 hl2
      (fun c hc hct => hf c (List.mem_cons_of_mem _ hc) hct)
    simp only [List.cons_append, Chain, List.head?_cons, Option.some.injEq, forall_eq']
    refine ⟨⟨nx0, ?_, ?_⟩, ?_⟩
    · rw [hf a (List.mem_cons_self _ _) hat]; exact hl0
    · intro c hc; simp at hc; subst hc; exact hnx b rfl
    · simpa using ih

/-! ## The queue operations preserve the representation -/

theorem holds_qcreate : Holds [] qcreate [] :=
  ⟨rfl, [], List.nodup_nil, trivial, by simp, by simp⟩

theorem holds_size (h : Heap) (q : tqueue_t) (xs : List Int) (hq : Holds h q xs) :
    qsize q = xs.length := hq.1

theorem qpush_holds (h : Heap) (q : tqueue_t) (xs : List Int) (n : Int)
    (hq : Holds h q xs) (hb : xs.length + 1 < UINT32_MOD) :
    ∃ h2 q2, qpush h q n = some (h2, q2) ∧ Holds h2 q2 (xs ++ [n]) ∧ q2.size = q.size + 1 := by
  obtain ⟨hs, as, hnd, hc, hh, ht⟩ := hq
  have hmod : (q.size + 1) % UINT32_MOD = q.size + 1 := by
    rw [hs]; exact Nat.mod_eq_of_lt hb
  have hlen := chain_length h as xs hc
  by_cases h0 : q.size = 0
  · have hxs : xs = [] := List.length_eq_zero.mp (by omega)
    subst hxs
    refine ⟨(malloc h, ⟨Ptr.indet, n⟩) :: h,
      { size := (q.size + 1) % UINT32_MOD, head := Ptr.addr (malloc h), tail := Ptr.addr (malloc h) },
      by simp [qpush, h0], ⟨by rw [hmod, h0]; rfl, [malloc h], by simp, ?_, by simp, by simp⟩, hmod⟩
    simp [Chain, load]
  · have hne : as ≠ [] := by
      intro hE; subst hE; simp at hlen; omega
    obtain ⟨t, hlast⟩ : ∃ t, as.getLast? = some t :=
      ⟨as.getLast hne, List.getLast?_eq_getLast _ hne⟩
    have htm : t ∈ as := List.mem_of_getLast?_eq_some hlast
    obtain ⟨last, hload⟩ := chain_live h as xs hc t htm
    have hfresh : ∀ b ∈ as, malloc h ≠ b := by
      intro b hbm hE
      obtain ⟨v, hv⟩ := chain_live h as xs hc b hbm
      rw [← hE, load_malloc] at hv
      exact Option.noConfusion hv
    have hload1 : load ((malloc h, (⟨Ptr.indet, n⟩ : tqueue_node_t)) :: h) t = some last := by
      simp [load, hfresh t htm, hload]
    refine ⟨store ((malloc h, ⟨Ptr.indet, n⟩) :: h) t { last with next := Ptr.addr (malloc h) },
      { q with size := (q.size + 1) % UINT32_MOD, tail := Ptr.addr (malloc h) }, ?_, ?_, hmod⟩
    · simp only [qpush, h0, if_false, ht t hlast, hload1]
    · refine ⟨by show (q.size + 1) % UINT32_MOD = _; rw [hmod, hs]; simp, as ++ [malloc h], ?_, ?_, ?_, by simp⟩
      · rw [List.nodup_append]
        refine ⟨hnd, by simp, ?_⟩
        intro b hb1 hb2
        simp at hb2
        exact hfresh b hb1 hb2.symm
      · refine chain_snoc h _ t (malloc h) n Ptr.indet ?_ ?_ as xs hc hnd hlast ?_
        · rw [load_store]
          simp [load, (hfresh t htm).symm]
        · intro l hl
          rw [load_store]
          rw [hload] at hl
          cases hl
          simp [hload1]
        · intro b hbm hbt
          rw [load_store]
          simp [load, Ne.symm hbt, hfresh b hbm]
      · intro a ha
        cases as with
        | nil => exact absurd rfl hne
        | cons a0 as0 =>
          simp at ha
          subst ha
          exact hh a0 rfl

theorem qpop_holds (h : Heap) (q : tqueue_t) (x : Int) (xs : List Int)
    (hq : Holds h q (x :: xs)) :
    ∃ h2 q2, qpop h q = some (x, h2, q2) ∧ Holds h2 q2 xs ∧ q2.size + 1 = q.size := by
  obtain ⟨hs, as, hnd, hc, hh, ht⟩ := hq
  cases as with
  | nil => simp [Chain] at hc
  | cons a as =>
    simp only [Chain] at hc
    obtain ⟨⟨nx, hl, hnx⟩, hrest⟩ := hc
    have h0 : q.size ≠ 0 := by rw [hs]; simp
    refine ⟨free h a, { q with head := nx, size := q.size - 1 }, ?_, ?_, ?_⟩
    · simp only [qpop, h0, if_false, hh a rfl, hl]
    · refine ⟨by simp [hs], as, (List.nodup_cons.mp hnd).2, ?_, ?_, ?_⟩
      · refine chain_frame h _ as xs hrest ?_
        intro b hb
        rw [load_free]
        have : a ≠ b := by
          intro hE; subst hE; exact (List.nodup_cons.mp hnd).1 hb
        simp [this]
      · intro b hb
        exact hnx b hb
      · intro t htl
        apply ht
        cases as with
        | nil => simp at htl
        | cons b bs => simpa [List.getLast?_cons_cons] using htl
    · simp only
      omega

theorem qpop_empty (h : Heap) (q : tqueue_t) (h0 : q.size = 0) : qpop h q = some (0, h, q) := by
  simp [qpop, h0]

/-! ## Sequences of queue calls -/

/-- C2 (code at the failing input). `qpop` on the empty queue of `qcreate()`
returns 0, which is not `NO_DATA`; the queue is left unchanged. -/
theorem qpop_empty_returns_zero :
    qpop [] qcreate = some (0, [], qcreate) ∧ (0 : Int) ≠ NO_DATA :=
  ⟨rfl, by decide⟩

theorem qpush_defined (h : Heap) (q : tqueue_t) (xs : List Int) (n : Int)
    (hq : Holds h q xs) :
    ∃ h2 q2, qpush h q n = some (h2, q2) ∧ q2.size = (q.size + 1) % UINT32_MOD := by
  obtain ⟨hs, as, hnd, hc, hh, ht⟩ := hq
  have hlen := chain_length h as xs hc
  by_cases h0 : q.size = 0
  · exact ⟨(malloc h, ⟨Ptr.indet, n⟩) :: h,
      { size := (q.size + 1) % UINT32_MOD, head := Ptr.addr (malloc h),
        tail := Ptr.addr (malloc h) },
      by simp only [qpush, h0, if_true], rfl⟩
  · have hne : as ≠ [] := by
      intro hE; subst hE; simp at hlen; omega
    obtain ⟨t, hlast⟩ : ∃ t, as.getLast? = some t :=
      ⟨as.getLast hne, List.getLast?_eq_getLast _ hne⟩
    have htm : t ∈ as := List.mem_of_getLast?_eq_some hlast
    obtain ⟨last, hload⟩ := chain_live h as xs hc t htm
    have hfresh : malloc h ≠ t := by
      intro hE
      rw [← hE, load_malloc] at hload
      exact Option.noConfusion hload
    have hload1 : load ((malloc h, (⟨Ptr.indet, n⟩ : tqueue_node_t)) :: h) t = some last := by
      simp [load, hfresh, hload]
    exact ⟨store ((malloc h, ⟨Ptr.indet, n⟩) :: h) t { last with next := Ptr.addr (malloc h) },
      { q with size := (q.size + 1) % UINT32_MOD, tail := Ptr.addr (malloc h) },
      by simp only [qpush, h0, if_false, ht t hlast, hload1], rfl⟩

theorem qcalls_holds : ∀ (ops : List QOp) (h : Heap) (q : tqueue_t) (xs : List Int),
    Holds h q xs → below_wrap ops xs.length = true →
    ∃ rets h2 q2, qcalls ops h q = some (rets, h2, q2) ∧
      on_nonempty ops xs.length rets = (xs ++ pushed ops).take (pops_on_nonempty ops xs.length) ∧
      pops_on_nonempty ops xs.length ≤ (xs ++ pushed ops).length ∧
      Holds h2 q2 ((xs ++ pushed ops).drop (pops_on_nonempty ops xs.length))
  | [], h, q, xs, hq, _ =>
    ⟨[], h, q, rfl, by simp [on_nonempty, pops_on_nonempty],
      by simp [pops_on_nonempty], by simpa [pushed, pops_on_nonempty] using hq⟩
  | QOp.push n :: ops, h, q, xs, hq, hb => by
    simp only [below_wrap, Bool.and_eq_true, decide_eq_true_eq] at hb
    obtain ⟨h1, q1, hp, hq1, _⟩ := qpush_holds h q xs n hq hb.1
    have hb1 : below_wrap ops (xs ++ [n]).length = true := by
      rw [List.length_append, List.length_singleton]; exact hb.2
    obtain ⟨rets, h2, q2, hr, ho, hl, hq2⟩ := qcalls_holds ops h1 q1 (xs ++ [n]) hq1 hb1
    rw [List.length_append, List.length_singleton] at ho hl hq2
    refine ⟨rets, h2, q2, by simp only [qcalls, hp, hr], ?_, ?_, ?_⟩
    · simpa [pushed, on_nonempty, pops_on_nonempty] using ho
    · simpa [pushed, pops_on_nonempty] using hl
    · simpa [pushed, pops_on_nonempty] using hq2
  | QOp.pop :: ops, h, q, [], hq, hb => by
    have h0 : q.size = 0 := hq.1
    simp only [List.length_nil, below_wrap] at hb
    obtain ⟨rets, h2, q2, hr, ho, hl, hq2⟩ := qcalls_holds ops h q [] hq hb
    simp only [List.length_nil] at ho hl hq2
    refine ⟨0 :: rets, h2, q2, by simp only [qcalls, qpop_empty h q h0, hr], ?_, ?_, ?_⟩
    · simpa [pushed, on_nonempty, pops_on_nonempty] using ho
    · simpa [pushed, pops_on_nonempty] using hl
    · simpa [pushed, pops_on_nonempty] using hq2
  | QOp.pop :: ops, h, q, x :: xs, hq, hb => by
    simp only [List.length_cons, below_wrap] at hb
    obtain ⟨h1, q1, hp, hq1, _⟩ := qpop_holds h q x xs hq
    obtain ⟨rets, h2, q2, hr, ho, hl, hq2⟩ := qcalls_holds ops h1 q1 xs hq1 hb
    refine ⟨x :: rets, h2, q2, by simp only [qcalls, hp, hr], ?_, ?_, ?_⟩
    · simp only [List.length_cons, on_nonempty, pops_on_nonempty, pushed, List.cons_append,
        List.take_succ_cons, ho]
    · simp only [List.length_cons, pops_on_nonempty, pushed, List.cons_append]
      omega
    · simpa [pushed, pops_on_nonempty] using hq2

theorem qcalls_pushes (v : Int) (rest : List QOp) : ∀ (j : Nat) (h : Heap) (q : tqueue_t)
    (xs : List Int), Holds h q xs → xs.length + j < UINT32_MOD →
    ∃ h2 q2, Holds h2 q2 (xs ++ List.replicate j v) ∧
      qcalls (List.replicate j (QOp.push v) ++ rest) h q = qcalls rest h2 q2
  | 0, h, q, xs, hq, _ => ⟨h, q, by simpa using hq, by simp⟩
  | j + 1, h, q, xs, hq, hb => by
    obtain ⟨h1, q1, hp, hq1, _⟩ := qpush_holds h q xs v hq (by omega)
    obtain ⟨h2, q2, hq2, hr⟩ := qcalls_pushes v rest j h1 q1 (xs ++ [v]) hq1
      (by rw [List.length_append, List.length_singleton]; omega)
    refine ⟨h2, q2, ?_, ?_⟩
    · rw [List.replicate_succ]
      simpa using hq2
    · rw [List.replicate_succ, List.cons_append]
      simp only [qcalls, hp]
      exact hr

theorem on_nonempty_pushes (v : Int) (rest : List QOp) (rets : List Int) : ∀ (j k : Nat),
    on_nonempty (List.replicate j (QOp.push v) ++ rest) k rets = on_nonempty rest (k + j) rets
  | 0, k => by simp
  | j + 1, k => by
    rw [List.replicate_succ, List.cons_append]
    simp only [on_nonempty]
    rw [on_nonempty_pushes v rest rets j (k + 1)]
    congr 1
    omega

theorem pushed_pushes (v : Int) (rest : List QOp) : ∀ (j : Nat),
    pushed (List.replicate j (QOp.push v) ++ rest) = List.replicate j v ++ pushed rest
  | 0 => by simp
  | j + 1 => by
    rw [List.replicate_succ, List.cons_append]
    simp only [pushed, pushed_pushes v rest j, List.replicate_succ, List.cons_append]

/-- After `j` pushes of 7 with `j + 1 = 2^32`, one more push of 7 wraps `size`
to 0, the push of 9 then starts the list anew, and the pop returns 9. -/
theorem qcalls_wrap (j : Nat) (hj : j + 1 = UINT32_MOD) :
    ∃ rets h q,
      qcalls (List.replicate j (QOp.push 7) ++ [QOp.push 7, QOp.push 9, QOp.pop]) [] qcreate
        = some (rets, h, q) ∧
      on_nonempty (List.replicate j (QOp.push 7) ++ [QOp.push 7, QOp.push 9, QOp.pop]) 0 rets
        = [9] ∧
      (pushed (List.replicate j (QOp.push 7) ++ [QOp.push 7, QOp.push 9, QOp.pop]))[0]?
        = some 7 := by
  obtain ⟨h1, q1, hq1, hr⟩ := qcalls_pushes 7 [QOp.push 7, QOp.push 9, QOp.pop] j [] qcreate []
    holds_qcreate (by simp only [List.length_nil]; omega)
  have hs1 : q1.size = j := by
    rw [hq1.1]; simp
  obtain ⟨h2, q2, hp2, hs2⟩ := qpush_defined h1 q1 _ 7 hq1
  have hs2' : q2.size = 0 := by
    rw [hs2, hs1, hj]; exact Nat.mod_self _
  have hp3 : qpush h2 q2 9 = some ((malloc h2, ⟨Ptr.indet, 9⟩) :: h2,
      { size := (q2.size + 1) % UINT32_MOD, head := Ptr.addr (malloc h2),
        tail := Ptr.addr (malloc h2) }) := by
    simp only [qpush, hs2', if_true]
  have hone : (0 + 1) % UINT32_MOD ≠ 0 := by decide
  have hp4 : qpop ((malloc h2, ⟨Ptr.indet, 9⟩) :: h2)
      { size := (q2.size + 1) % UINT32_MOD, head := Ptr.addr (malloc h2),
        tail := Ptr.addr (malloc h2) } =
      some (9, free ((malloc h2, ⟨Ptr.indet, 9⟩) :: h2) (malloc h2),
        { size := (q2.size + 1) % UINT32_MOD - 1, head := Ptr.indet,
          tail := Ptr.addr (malloc h2) }) := by
    rw [hs2']
    simp only [qpop, hone, if_false, load, if_true]
  refine ⟨[9], free ((malloc h2, ⟨Ptr.indet, 9⟩) :: h2) (malloc h2),
    { size := (q2.size + 1) % UINT32_MOD - 1, head := Ptr.indet, tail := Ptr.addr (malloc h2) },
    ?_, ?_, ?_⟩
  · rw [hr]
    simp only [qcalls, hp2, hp3, hp4]
  · rw [on_nonempty_pushes]
    simp only [on_nonempty]
  · rw [pushed_pushes]
    cases j with
    | zero => exact absurd hj (by decide)
    | succ k => simp [List.replicate_succ]

/-- C1 (counterexample). After 2^32 pushes of 7 the `uint32_t` size is 0 again,
so the push of 9 that follows is linked as the head: the next `qpop`, made
while the queue holds 2^32 + 1 items, returns 9 and not the first pushed
value 7. -/
theorem fifo_lost_at_wrap :
    ∃ rets h q,
      qcalls (List.replicate 4294967295 (QOp.push 7) ++ [QOp.push 7, QOp.push 9, QOp.pop])
        [] qcreate = some (rets, h, q) ∧
      on_nonempty (List.replicate 4294967295 (QOp.push 7) ++ [QOp.push 7, QOp.push 9, QOp.pop])
        0 rets = [9] ∧
      (pushed (List.replicate 4294967295 (QOp.push 7) ++ [QOp.push 7, QOp.push 9, QOp.pop]))[0]?
        = some 7 :=
  qcalls_wrap 4294967295 (by decide)

/-- C1 (amended). FIFO order: from `qcreate()`, every sequence of `qpush` and
`qpop` calls during which the queue never comes to hold 2^32 items runs
without fault; the `qpop` calls made while the queue is non-empty (by the count
of the calls) are all answered, and the i-th of them returns the value given to
the i-th `qpush`. -/
theorem qpop_fifo (ops : List QOp) (hb : below_wrap ops 0 = true) :
    ∃ rets h q, qcalls ops [] qcreate = some (rets, h, q) ∧
      (on_nonempty ops 0 rets).length = pops_on_nonempty ops 0 ∧
      ∀ i, i < pops_on_nonempty ops 0 →
        ∃ v, (on_nonempty ops 0 rets)[i]? = some v ∧ (pushed ops)[i]? = some v := by
  obtain ⟨rets, h, q, hr, ho, hl, _⟩ := qcalls_holds ops [] qcreate [] holds_qcreate hb
  simp only [List.length_nil, List.nil_append] at ho hl
  refine ⟨rets, h, q, hr, ?_, ?_⟩
  · rw [ho, List.length_take]
    omega
  · intro i hi
    have hlt : i < (pushed ops).length := by omega
    refine ⟨(pushed ops)[i], ?_, List.getElem?_eq_getElem hlt⟩
    rw [ho, List.getElem?_take_of_lt hi]
    exact List.getElem?_eq_getElem hlt

/-- Witness of C1 (amended): pushes interleaved with pops, the queue drained to
empty, popped once more (that call returns 0) and pushed to again; the pops on
the non-empty queue return 5, 6, 7, the values pushed. -/
theorem qpop_fifo_witness :
    below_wrap [QOp.push 5, QOp.push 6, QOp.pop, QOp.pop, QOp.pop, QOp.push 7, QOp.pop] 0
      = true ∧
    (qcalls [QOp.push 5, QOp.push 6, QOp.pop, QOp.pop, QOp.pop, QOp.push 7, QOp.pop] [] qcreate).map
      (fun r => r.1) = some [5, 6, 0, 7] ∧
    on_nonempty [QOp.push 5, QOp.push 6, QOp.pop, QOp.pop, QOp.pop, QOp.push 7, QOp.pop] 0
      [5, 6, 0, 7] = [5, 6, 7] ∧
    pushed [QOp.push 5, QOp.push 6, QOp.pop, QOp.pop, QOp.pop, QOp.push 7, QOp.pop] = [5, 6, 7] ∧
    ∃ rets h q,
      qcalls [QOp.push 5, QOp.push 6, QOp.pop, QOp.pop, QOp.pop, QOp.push 7, QOp.pop] [] qcreate
        = some (rets, h, q) ∧
      (on_nonempty [QOp.push 5, QOp.push 6, QOp.pop, QOp.pop, QOp.pop, QOp.push 7, QOp.pop] 0
        rets).length
        = pops_on_nonempty [QOp.push 5, QOp.push 6, QOp.pop, QOp.pop, QOp.pop, QOp.push 7,
            QOp.pop] 0 ∧
      ∀ i, i < pops_on_nonempty [QOp.push 5, QOp.push 6, QOp.pop, QOp.pop, QOp.pop, QOp.push 7,
          QOp.pop] 0 →
        ∃ v, (on_nonempty [QOp.push 5, QOp.push 6, QOp.pop, QOp.pop, QOp.pop, QOp.push 7,
            QOp.pop] 0 rets)[i]? = some v ∧
          (pushed [QOp.push 5, QOp.push 6, QOp.pop, QOp.pop, QOp.pop, QOp.push 7, QOp.pop])[i]?
            = some v :=
  ⟨by decide, by decide, by decide, by decide, qpop_fifo _ (by decide)⟩

/-! ## Rendering of the optional fields -/

theorem toString_int_length (v : Int) (e : Nat) (hlo : -(10 : Int) ^ e < v) (hhi : v < 10 ^ (e + 1)) :
    (toString v).length ≤ e + 1 := by
  cases v with
  | ofNat m =>
    have hm : m < 10 ^ (e + 1) := by
      have h1 : (m : Int) < (10 : Int) ^ (e + 1) := hhi
      exact_mod_cast h1
    exact Nat.repr_length m (e + 1) (Nat.succ_pos e) hm
  | negSucc m =>
    have hm : m + 1 < 10 ^ e := by
      have h1 : -(10 : Int) ^ e < -((m : Int) + 1) := by
        rw [Int.negSucc_eq] at hlo
        exact hlo
      have h2 : ((m : Int) + 1) < (10 : Int) ^ e := by linarith
      exact_mod_cast h2
    have he : 0 < e := by
      rcases Nat.eq_zero_or_pos e with h0 | h0
      · subst h0; simp at hm
      · exact h0
    have hl := Nat.repr_length (m + 1) e he hm
    show ("-" ++ Nat.repr (m + 1)).length ≤ e + 1
    rw [String.length_append]
    have : "-".length = 1 := rfl
    omega

theorem fmt_d_length (w : Nat) (v : Int) (h : (toString v).length ≤ w) :
    (fmt_d w v).length = w := by
  unfold fmt_d
  rw [String.length_append]
  show (List.replicate (w - (toString v).length) ' ').length + (toString v).length = w
  rw [List.length_replicate]
  omega

theorem fmt_d_right_justified (w : Nat) (v : Int) (h : (toString v).length ≤ w) :
    right_justified w v (fmt_d w v) :=
  ⟨fmt_d_length w v h, rfl⟩

theorem nstr_of_no_data : nstr_of NO_DATA = some "    " := rfl

theorem qstr_of_no_data : qstr_of NO_DATA = some "    " := rfl

theorem nstr_of_number (n : Int) (hn : n ≠ NO_DATA) (hlo : -999 ≤ n) (hhi : n ≤ 9999) :
    ∃ s, nstr_of n = some s ∧ right_justified 4 n s := by
  have hlen : (toString n).length ≤ 4 :=
    toString_int_length n 3 (by norm_num; omega) (by norm_num; omega)
  refine ⟨fmt_d 4 n, ?_, fmt_d_right_justified 4 n hlen⟩
  simp [nstr_of, hn, sprintf5, fmt_d_length 4 n hlen]

theorem qstr_of_number (q : Int) (hq : q ≠ NO_DATA) (hlo : -9 ≤ q) (hhi : q ≤ 99) :
    ∃ s, qstr_of q = some ("Q=" ++ s) ∧ right_justified 2 q s := by
  have hlen : (toString q).length ≤ 2 :=
    toString_int_length q 1 (by norm_num; omega) (by norm_num; omega)
  refine ⟨fmt_d 2 q, ?_, fmt_d_right_justified 2 q hlen⟩
  have : ("Q=" ++ fmt_d 2 q).length = 4 := by
    rw [String.length_append, fmt_d_length 2 q hlen]; rfl
  simp [qstr_of, hq, sprintf5, this]

theorem nstr_of_some (n : Int) (hlo : -999 ≤ n) (hhi : n ≤ 9999) :
    ∃ s, nstr_of n = some s ∧ (n = NO_DATA → s = "    ") ∧
      (n ≠ NO_DATA → right_justified 4 n s) := by
  by_cases hn : n = NO_DATA
  · subst hn
    exact ⟨"    ", rfl, fun _ => rfl, fun h => absurd rfl h⟩
  · obtain ⟨s, hs, hr⟩ := nstr_of_number n hn hlo hhi
    exact ⟨s, hs, fun h => absurd h hn, fun _ => hr⟩

theorem qstr_of_some (q : Int) (hlo : -9 ≤ q) (hhi : q ≤ 99) :
    ∃ s, qstr_of q = some s ∧ (q = NO_DATA → s = "    ") ∧
      (q ≠ NO_DATA → ∃ t, s = "Q=" ++ t ∧ right_justified 2 q t) := by
  by_cases hq : q = NO_DATA
  · subst hq
    exact ⟨"    ", rfl, fun _ => rfl, fun h => absurd rfl h⟩
  · obtain ⟨t, ht, hr⟩ := qstr_of_number q hq hlo hhi
    exact ⟨"Q=" ++ t, ht, fun h => absurd h hq, fun _ => ⟨t, rfl, hr⟩⟩

theorem to_int_small (k : Nat) (hk : k ≤ 99) : to_int k = (k : Int) := by
  unfold to_int
  rw [if_pos (by omega)]

/-- A queue size of at most 99 is logged as `Q=` and the size right-justified
in 2 characters. -/
theorem qstr_of_size (k : Nat) (hk : k ≤ 99) :
    ∃ t, qstr_of (to_int k) = some ("Q=" ++ t) ∧ right_justified 2 (k : Int) t := by
  rw [to_int_small k hk]
  exact qstr_of_number _ (by simp only [NO_DATA]; omega) (by omega) (by omega)

/-- A five-digit value does not fit `nstr`, a three-digit size does not fit
`qstr`. -/
theorem sprintf_overrun : nstr_of 10000 = none ∧ qstr_of 100 = none := by
  constructor <;> decide

/-! ## Effect of one `log_event` call -/

theorem log_event_eq (conf : tconf_t) (id : Nat) (q n : Int) (event qs ns : String)
    (hq : qstr_of q = some qs) (hn : nstr_of n = some ns) :
    log_event conf id q event n =
      match log_event_to_report conf id event with
      | some conf1 => some { conf1 with logfile := conf1.logfile ++ [⟨id, qs, event, ns⟩] }
      | none => none := by
  simp only [log_event, hq, hn]

theorem log_event_overrun (conf : tconf_t) (id : Nat) (q n : Int) (event : String)
    (h : qstr_of q = none ∨ nstr_of n = none) : log_event conf id q event n = none := by
  rcases h with h | h
  · simp only [log_event, h]
  · cases hq : qstr_of q <;> simp only [log_event, hq, h]

theorem log_event_inv (conf conf2 : tconf_t) (id : Nat) (q n : Int) (event : String)
    (hl : log_event conf id q event n = some conf2) :
    ∃ qs ns conf1, qstr_of q = some qs ∧ nstr_of n = some ns ∧
      log_event_to_report conf id event = some conf1 ∧
      conf2 = { conf1 with logfile := conf1.logfile ++ [⟨id, qs, event, ns⟩] } := by
  unfold log_event at hl
  cases hq : qstr_of q with
  | none => rw [hq] at hl; exact Option.noConfusion hl
  | some qs =>
    cases hn : nstr_of n with
    | none => rw [hq, hn] at hl; exact Option.noConfusion hl
    | some ns =>
      cases hr : log_event_to_report conf id event with
      | none => rw [hq, hn, hr] at hl; exact Option.noConfusion hl
      | some conf1 =>
        rw [hq, hn, hr] at hl
        exact ⟨qs, ns, conf1, rfl, rfl, rfl, (Option.some.inj hl).symm⟩

theorem log_event_ask (conf : tconf_t) (id : Nat) (q n : Int) (qs ns : String)
    (hq : qstr_of q = some qs) (hn : nstr_of n = some ns) :
    log_event conf id q ASK_EVENT n = some { conf with
      master_report :=
        { conf.master_report with asks := (conf.master_report.asks + 1) % UINT32_MOD },
      logfile := conf.logfile ++ [⟨id, qs, ASK_EVENT, ns⟩] } := by
  rw [log_event_eq conf id q n ASK_EVENT qs ns hq hn]; rfl

theorem log_event_recieve (conf : tconf_t) (id : Nat) (q n : Int) (qs ns : String)
    (hq : qstr_of q = some qs) (hn : nstr_of n = some ns) :
    log_event conf id q RECIEVE_EVENT n = some { conf with
      master_report :=
        { conf.master_report with recieves := (conf.master_report.recieves + 1) % UINT32_MOD },
      logfile := conf.logfile ++ [⟨id, qs, RECIEVE_EVENT, ns⟩] } := by
  rw [log_event_eq conf id q n RECIEVE_EVENT qs ns hq hn]; rfl

theorem log_event_work (conf : tconf_t) (id : Nat) (q n : Int) (qs ns : String)
    (hq : qstr_of q = some qs) (hn : nstr_of n = some ns) :
    log_event conf id q WORK_EVENT n = some { conf with
      master_report :=
        { conf.master_report with works := (conf.master_report.works + 1) % UINT32_MOD },
      logfile := conf.logfile ++ [⟨id, qs, WORK_EVENT, ns⟩] } := by
  rw [log_event_eq conf id q n WORK_EVENT qs ns hq hn]; rfl

theorem log_event_sleep (conf : tconf_t) (id : Nat) (q n : Int) (qs ns : String)
    (hq : qstr_of q = some qs) (hn : nstr_of n = some ns) :
    log_event conf id q SLEEP_EVENT n = some { conf with
      master_report :=
        { conf.master_report with sleeps := (conf.master_report.sleeps + 1) % UINT32_MOD },
      logfile := conf.logfile ++ [⟨id, qs, SLEEP_EVENT, ns⟩] } := by
  rw [log_event_eq conf id q n SLEEP_EVENT qs ns hq hn]; rfl

theorem log_event_end (conf : tconf_t) (id : Nat) (q n : Int) (qs ns : String)
    (hq : qstr_of q = some qs) (hn : nstr_of n = some ns) :
    log_event conf id q END_EVENT n = some { conf with
      logfile := conf.logfile ++ [⟨id, qs, END_EVENT, ns⟩] } := by
  rw [log_event_eq conf id q n END_EVENT qs ns hq hn]; rfl

theorem report_complete_eq (conf : tconf_t) (id : Nat) :
    log_event_to_report conf id COMPLETE_EVENT =
      match conf.thread_reports[(id + UINT32_MOD - 1) % UINT32_MOD]? with
      | some c => some { conf with
          master_report :=
            { conf.master_report with
              completes := (conf.master_report.completes + 1) % UINT32_MOD },
          thread_reports :=
            conf.thread_reports.set ((id + UINT32_MOD - 1) % UINT32_MOD) ((c + 1) % UINT16_MOD) }
      | none => none := rfl

theorem log_event_complete_eq (conf : tconf_t) (id : Nat) (q n : Int) (qs ns : String)
    (hq : qstr_of q = some qs) (hn : nstr_of n = some ns) :
    log_event conf id q COMPLETE_EVENT n =
      match conf.thread_reports[(id + UINT32_MOD - 1) % UINT32_MOD]? with
      | some c => some { conf with
          master_report :=
            { conf.master_report with
              completes := (conf.master_report.completes + 1) % UINT32_MOD },
          thread_reports :=
            conf.thread_reports.set ((id + UINT32_MOD - 1) % UINT32_MOD) ((c + 1) % UINT16_MOD),
          logfile := conf.logfile ++ [⟨id, qs, COMPLETE_EVENT, ns⟩] }
      | none => none := by
  rw [log_event_eq conf id q n COMPLETE_EVENT qs ns hq hn, report_complete_eq]
  cases conf.thread_reports[(id + UINT32_MOD - 1) % UINT32_MOD]? <;> rfl

theorem log_event_complete (conf : tconf_t) (id : Nat) (q n : Int) (conf2 : tconf_t)
    (hl : log_event conf id q COMPLETE_EVENT n = some conf2) :
    ∃ c qs ns, conf.thread_reports[(id + UINT32_MOD - 1) % UINT32_MOD]? = some c ∧
      qstr_of q = some qs ∧ nstr_of n = some ns ∧
      conf2 = { conf with
        master_report :=
          { conf.master_report with completes := (conf.master_report.completes + 1) % UINT32_MOD },
        thread_reports :=
          conf.thread_reports.set ((id + UINT32_MOD - 1) % UINT32_MOD) ((c + 1) % UINT16_MOD),
        logfile := conf.logfile ++ [⟨id, qs, COMPLETE_EVENT, ns⟩] } := by
  obtain ⟨qs, ns, conf1, hq, hn, _, _⟩ := log_event_inv _ _ _ _ _ _ hl
  rw [log_event_complete_eq conf id q n qs ns hq hn] at hl
  cases hc : conf.thread_reports[(id + UINT32_MOD - 1) % UINT32_MOD]? with
  | none => rw [hc] at hl; exact Option.noConfusion hl
  | some c =>
    rw [hc] at hl
    exact ⟨c, qs, ns, rfl, hq, hn, (Option.some.inj hl).symm⟩

/-- Repeated Complete events of worker 1 in a one-worker manager: the master
counter advances modulo 2^32, the worker's counter modulo 2^16. -/
theorem log_events_complete_one (q n : Int) (qs ns : String)
    (hq : qstr_of q = some qs) (hn : nstr_of n = some ns) :
    ∀ (k : Nat) (conf : tconf_t) (c : Nat),
    conf.thread_reports = [c] → conf.master_report.completes < UINT32_MOD → c < UINT16_MOD →
    ∃ conf2, log_events conf (List.replicate k (1, q, COMPLETE_EVENT, n)) = some conf2 ∧
      conf2.master_report.completes = (conf.master_report.completes + k) % UINT32_MOD ∧
      conf2.thread_reports = [(c + k) % UINT16_MOD]
  | 0, conf, c, hc, hm, hlt =>
    ⟨conf, rfl, by simp [Nat.mod_eq_of_lt hm], by simp [hc, Nat.mod_eq_of_lt hlt]⟩
  | k + 1, conf, c, hc, hm, hlt => by
    have hidx : (1 + UINT32_MOD - 1) % UINT32_MOD = 0 := by decide
    have hstep : log_event conf 1 q COMPLETE_EVENT n = some { conf with
        master_report :=
          { conf.master_report with completes := (conf.master_report.completes + 1) % UINT32_MOD },
        thread_reports := [(c + 1) % UINT16_MOD],
        logfile := conf.logfile ++ [⟨1, qs, COMPLETE_EVENT, ns⟩] } := by
      rw [log_event_complete_eq conf 1 q n qs ns hq hn, hidx, hc]
      rfl
    obtain ⟨conf2, hr, hm2, ht2⟩ := log_events_complete_one q n qs ns hq hn k _
      ((c + 1) % UINT16_MOD)
      (rfl : ({ conf with
        master_report :=
          { conf.master_report with completes := (conf.master_report.completes + 1) % UINT32_MOD },
        thread_reports := [(c + 1) % UINT16_MOD],
        logfile := conf.logfile ++ [⟨1, qs, COMPLETE_EVENT, ns⟩] } : tconf_t).thread_reports
          = [(c + 1) % UINT16_MOD])
      (Nat.mod_lt _ (by decide)) (Nat.mod_lt _ (by decide))
    refine ⟨conf2, ?_, ?_, ?_⟩
    · simp only [List.replicate_succ, log_events, hstep]
      exact hr
    · rw [hm2]
      simp only [UINT32_MOD]
      omega
    · rw [ht2]
      simp only [UINT16_MOD, List.cons.injEq, and_true]
      omega

/-! ## Initial state -/

/-- What `tman_init` establishes for every input: empty queue, the capacity
ceiling, cleared master counters, worker ids `1..thread_count`; the flag and
the per-worker counters are whatever the allocated memory held. -/
theorem tman_init_state (buffer_size thread_count : Nat) (raw_complete : Bool)
    (raw_reports : Nat → Nat) :
    (tman_init buffer_size thread_count raw_complete raw_reports).world.manager.config.buffer
      = qcreate ∧
    (tman_init buffer_size thread_count raw_complete raw_reports).world.heap = [] ∧
    (tman_init buffer_size thread_count raw_complete raw_reports).world.manager.config.max_buffer_size
      = buffer_size ∧
    (tman_init buffer_size thread_count raw_complete raw_reports).world.manager.config.master_report
      = ⟨0, 0, 0, 0, 0⟩ ∧
    (tman_init buffer_size thread_count raw_complete raw_reports).workers.map (fun wk => wk.sub.id)
      = (List.range thread_count).map (fun i => i + 1) ∧
    (tman_init buffer_size thread_count raw_complete raw_reports).world.manager.complete
      = raw_complete ∧
    (tman_init buffer_size thread_count raw_complete raw_reports).world.manager.config.thread_reports
      = (List.range thread_count).map (fun i => raw_reports i % UINT16_MOD) :=
  ⟨rfl, rfl, rfl, rfl, by simp [tman_init], rfl, rfl⟩

/-- C6 (code at the failing input). `tman_init(4, 2, log)` on allocated memory
that holds non-zero bytes: the termination flag is true and the per-worker
counters are 7, not zero; the other parts of the initial state are as claimed. -/
theorem tman_init_unwritten_memory :
    (tman_init 4 2 true (fun _ => 7)).world.manager.complete = true ∧
    (tman_init 4 2 true (fun _ => 7)).world.manager.config.thread_reports = [7, 7] ∧
    qsize (tman_init 4 2 true (fun _ => 7)).world.manager.config.buffer = 0 ∧
    (tman_init 4 2 true (fun _ => 7)).world.manager.config.max_buffer_size = 4 ∧
    (tman_init 4 2 true (fun _ => 7)).world.manager.config.master_report = ⟨0, 0, 0, 0, 0⟩ ∧
    (tman_init 4 2 true (fun _ => 7)).workers.map (fun wk => wk.sub.id) = [1, 2] := by
  decide

/-! ## Counter widths -/

/-- C7 (code at the failing input). From a one-worker manager with all
counters zero, 65536 Complete events of worker 1 leave the master Complete
counter at 65536 and the per-worker counter, a `uint16_t`, at 0: the sum of the
per-worker counters is not the master counter. -/
theorem complete_counters_diverge :
    ∃ conf, log_events (tman_init 2 1 false (fun _ => 0)).world.manager.config
        (List.replicate 65536 (1, NO_DATA, COMPLETE_EVENT, 7)) = some conf ∧
      conf.master_report.completes = 65536 ∧ conf.thread_reports.sum = 0 := by
  obtain ⟨conf, hr, hm, ht⟩ := log_events_complete_one NO_DATA 7 "    " "   7" rfl (by decide)
    65536 (tman_init 2 1 false (fun _ => 0)).world.manager.config 0 (by decide) (by decide)
    (by decide)
  refine ⟨conf, hr, ?_, ?_⟩
  · rw [hm]; decide
  · rw [ht]; decide

/-- What `log_event_to_report` does for each event name: the four plain events
add one (in `uint32_t`) to their own master counter and touch nothing else; End
and any name that is none of the five counted ones change nothing. -/
theorem report_counter_rule (conf : tconf_t) (id : Nat) :
    log_event_to_report conf id WORK_EVENT = some { conf with master_report :=
      { conf.master_report with works := (conf.master_report.works + 1) % UINT32_MOD } } ∧
    log_event_to_report conf id ASK_EVENT = some { conf with master_report :=
      { conf.master_report with asks := (conf.master_report.asks + 1) % UINT32_MOD } } ∧
    log_event_to_report conf id RECIEVE_EVENT = some { conf with master_report :=
      { conf.master_report with recieves := (conf.master_report.recieves + 1) % UINT32_MOD } } ∧
    log_event_to_report conf id SLEEP_EVENT = some { conf with master_report :=
      { conf.master_report with sleeps := (conf.master_report.sleeps + 1) % UINT32_MOD } } ∧
    log_event_to_report conf id END_EVENT = some conf ∧
    (∀ event : String, event ≠ WORK_EVENT → event ≠ ASK_EVENT → event ≠ RECIEVE_EVENT →
      event ≠ COMPLETE_EVENT → event ≠ SLEEP_EVENT →
      log_event_to_report conf id event = some conf) := by
  refine ⟨rfl, rfl, rfl, rfl, rfl, ?_⟩
  intro event h1 h2 h3 h4 h5
  simp only [log_event_to_report, h1, h2, h3, h4, h5, if_false]

/-- C11 (code at the failing input). In a one-worker manager started with all
counters zero, 65535 Complete events of worker 1 bring the master Complete
counter and the per-worker counter to 65535; the next Complete event of worker
1 takes the master counter to 65536 and the per-worker counter, a `uint16_t`,
to 0 instead of incrementing it by one. -/
theorem per_worker_counter_wraps :
    ∃ conf conf2, log_events (tman_init 2 1 false (fun _ => 0)).world.manager.config
        (List.replicate 65535 (1, NO_DATA, COMPLETE_EVENT, 7)) = some conf ∧
      conf.master_report.completes = 65535 ∧ conf.thread_reports = [65535] ∧
      log_event conf 1 NO_DATA COMPLETE_EVENT 7 = some conf2 ∧
      conf2.master_report.completes = 65536 ∧ conf2.thread_reports = [0] := by
  obtain ⟨conf, hr, hm, ht⟩ := log_events_complete_one NO_DATA 7 "    " "   7" rfl (by decide)
    65535 (tman_init 2 1 false (fun _ => 0)).world.manager.config 0 (by decide) (by decide)
    (by decide)
  have hm2 : conf.master_report.completes = 65535 := by rw [hm]; decide
  have ht2 : conf.thread_reports = [65535] := by rw [ht]; decide
  have hidx : (1 + UINT32_MOD - 1) % UINT32_MOD = 0 := by decide
  refine ⟨conf, { conf with
      master_report :=
        { conf.master_report with completes := (conf.master_report.completes + 1) % UINT32_MOD },
      thread_reports := [(65535 + 1) % UINT16_MOD],
      logfile := conf.logfile ++ [⟨1, "    ", COMPLETE_EVENT, "   7"⟩] }, hr, hm2, ht2, ?_, ?_, ?_⟩
  · rw [log_event_complete_eq conf 1 NO_DATA 7 "    " "   7" rfl (by decide), hidx, ht2]
    rfl
  · show (conf.master_report.completes + 1) % UINT32_MOD = 65536
    rw [hm2]
    decide
  · show [(65535 + 1) % UINT16_MOD] = [0]
    decide

/-! ## Effect of the manager's operations on the shared state -/

theorem completes_logged_append (ls : List log_line) (l : log_line) :
    completes_logged (ls ++ [l]) =
      completes_logged ls + (if l.event = COMPLETE_EVENT then 1 else 0) := by
  induction ls with
  | nil => simp [completes_logged]
  | cons a ls ih =>
    show (if a.event = COMPLETE_EVENT then 1 else 0) + completes_logged (ls ++ [l]) = _
    rw [ih]
    simp only [completes_logged]
    omega

theorem wsame_refl (w : World) : WSame w w := ⟨rfl, rfl, rfl, rfl⟩

theorem wsame_trans (w1 w2 w3 : World) (h12 : WSame w1 w2) (h23 : WSame w2 w3) : WSame w1 w3 :=
  ⟨h23.1.trans h12.1, h23.2.1.trans h12.2.1, h23.2.2.1.trans h12.2.2.1,
    h23.2.2.2.trans h12.2.2.2⟩

/-- A defined `log_event` call for an event other than Complete leaves the
queue, the flag, the capacity, the master Complete counter and the number of
Complete lines as they were. -/
theorem log_event_other (w : World) (conf2 : tconf_t) (id : Nat) (q n : Int) (event : String)
    (hev : event = ASK_EVENT ∨ event = RECIEVE_EVENT ∨ event = WORK_EVENT ∨ event = SLEEP_EVENT ∨
      event = END_EVENT)
    (hl : log_event w.manager.config id q event n = some conf2) :
    conf2.buffer = w.manager.config.buffer ∧
    WSame w ⟨w.heap, { w.manager with config := conf2 }⟩ := by
  obtain ⟨qs, ns, conf1, _, _, hr, hconf⟩ := log_event_inv _ _ _ _ _ _ hl
  obtain ⟨r1, r2, r3, r4, r5, _⟩ := report_counter_rule w.manager.config id
  rcases hev with h | h | h | h | h <;> subst h
  · rw [r2] at hr; cases hr; subst hconf
    exact ⟨rfl, rfl, rfl, rfl, by simp only [completes_logged_append]; rfl⟩
  · rw [r3] at hr; cases hr; subst hconf
    exact ⟨rfl, rfl, rfl, rfl, by simp only [completes_logged_append]; rfl⟩
  · rw [r1] at hr; cases hr; subst hconf
    exact ⟨rfl, rfl, rfl, rfl, by simp only [completes_logged_append]; rfl⟩
  · rw [r4] at hr; cases hr; subst hconf
    exact ⟨rfl, rfl, rfl, rfl, by simp only [completes_logged_append]; rfl⟩
  · rw [r5] at hr; cases hr; subst hconf
    exact ⟨rfl, rfl, rfl, rfl, by simp only [completes_logged_append]; rfl⟩

theorem tman_publish_locked_push (w : World) (n : Int) (xs : List Int)
    (hq : Holds w.heap w.manager.config.buffer xs)
    (hlt : qsize w.manager.config.buffer < w.manager.config.max_buffer_size)
    (hcap : w.manager.config.max_buffer_size < UINT32_MOD) :
    ∃ w2, tman_publish_locked w n = some (Call.returned () w2) ∧
      Holds w2.heap w2.manager.config.buffer (xs ++ [n]) ∧ WSame w w2 ∧
      w2.manager.config.logfile = w.manager.config.logfile := by
  have hb : xs.length + 1 < UINT32_MOD := by
    rw [← holds_size _ _ _ hq]; omega
  obtain ⟨h2, q2, hp, hq2, _⟩ := qpush_holds _ _ xs n hq hb
  have hnot : ¬ w.manager.config.max_buffer_size ≤ qsize w.manager.config.buffer := by omega
  refine ⟨⟨h2, { w.manager with config := { w.manager.config with buffer := q2 } }⟩, ?_, hq2,
    ⟨rfl, rfl, rfl, rfl⟩, rfl⟩
  simp only [tman_publish_locked, hnot, if_false, hp]

theorem tman_publish_locked_wait (w : World) (n : Int)
    (hge : w.manager.config.max_buffer_size ≤ qsize w.manager.config.buffer) :
    tman_publish_locked w n = some (Call.waiting w) := by
  simp only [tman_publish_locked, hge, if_true]

/-- A defined `tman_publish` call is a Work event followed by the part from the
loop test on. -/
theorem tman_publish_inv (w : World) (n : Int) (r : Call Unit)
    (hr : tman_publish w n = some r) :
    ∃ conf1, log_event w.manager.config 0 (to_int (qsize w.manager.config.buffer)) WORK_EVENT n
        = some conf1 ∧
      tman_publish_locked ⟨w.heap, { w.manager with config := conf1 }⟩ n = some r := by
  unfold tman_publish at hr
  cases hl : log_event w.manager.config 0 (to_int (qsize w.manager.config.buffer)) WORK_EVENT n with
  | none => rw [hl] at hr; exact Option.noConfusion hr
  | some conf1 =>
    rw [hl] at hr
    exact ⟨conf1, rfl, hr⟩

theorem consumer_complete_effect (w w2 : World) (sub : tsub_t) (n : Int)
    (hc : consumer_complete w sub n = some w2) :
    w2.heap = w.heap ∧ w2.manager.config.buffer = w.manager.config.buffer ∧
    w2.manager.complete = w.manager.complete ∧
    w2.manager.config.max_buffer_size = w.manager.config.max_buffer_size ∧
    w2.manager.config.master_report.completes =
      (w.manager.config.master_report.completes + 1) % UINT32_MOD ∧
    completes_logged w2.manager.config.logfile =
      completes_logged w.manager.config.logfile + 1 := by
  unfold consumer_complete at hc
  cases hl : log_event w.manager.config sub.id NO_DATA COMPLETE_EVENT n with
  | none => rw [hl] at hc; exact Option.noConfusion hc
  | some conf1 =>
    rw [hl] at hc
    obtain ⟨c, qs, ns, _, _, _, hconf⟩ := log_event_complete _ _ _ _ _ hl
    cases hc
    subst hconf
    refine ⟨rfl, rfl, rfl, rfl, rfl, ?_⟩
    simp only [completes_logged_append]
    rfl

/-- One defined pass of the critical section of `consumer_request` on a queue
holding `xs`: exit on empty and closed, wait on empty and open, else pop the
head. -/
theorem consumer_request_locked_effect (w : World) (sub : tsub_t) (xs : List Int)
    (r : Call Int) (hq : Holds w.heap w.manager.config.buffer xs)
    (hr : consumer_request_locked w sub = some r) :
    (xs = [] ∧ w.manager.complete = true ∧ r = Call.returned NO_DATA w) ∨
    (xs = [] ∧ w.manager.complete = false ∧ r = Call.waiting w) ∨
    (∃ x xs2 w2, xs = x :: xs2 ∧ r = Call.returned x w2 ∧
      Holds w2.heap w2.manager.config.buffer xs2 ∧ WSame w w2) := by
  cases xs with
  | nil =>
    have h0 : qsize w.manager.config.buffer = 0 := holds_size _ _ _ hq
    cases hc : w.manager.complete with
    | true =>
      left
      simp only [consumer_request_locked, h0, if_true, hc, Option.some.injEq] at hr
      exact ⟨rfl, rfl, hr.symm⟩
    | false =>
      right; left
      simp only [consumer_request_locked, h0, if_true, hc, Bool.false_eq_true, if_false,
        Option.some.injEq] at hr
      exact ⟨rfl, rfl, hr.symm⟩
  | cons x xs2 =>
    right; right
    obtain ⟨h1, q1, hp, hq1, _⟩ := qpop_holds _ _ x xs2 hq
    have h0 : ¬ qsize w.manager.config.buffer = 0 := by
      rw [holds_size _ _ _ hq]; simp
    simp only [consumer_request_locked, h0, if_false, hp] at hr
    cases hl : log_event { w.manager.config with buffer := q1 } sub.id (to_int (qsize q1))
        RECIEVE_EVENT x with
    | none => rw [hl] at hr; exact Option.noConfusion hr
    | some conf2 =>
      rw [hl] at hr
      simp only [Option.some.injEq] at hr
      obtain ⟨hbuf, hws⟩ := log_event_other
        ⟨h1, { w.manager with config := { w.manager.config with buffer := q1 } }⟩ conf2 sub.id
        (to_int (qsize q1)) x RECIEVE_EVENT (Or.inr (Or.inl rfl)) hl
      refine ⟨x, xs2, ⟨h1, { w.manager with config := conf2 }⟩, rfl, hr.symm, ?_, hws⟩
      show Holds h1 conf2.buffer xs2
      rw [hbuf]
      exact hq1

/-! ## Every step is one of the described effects -/

theorem worker_exited_iff (wk : Worker) : Worker.exited wk = true ↔ wk.pc = wpc.exited := by
  unfold Worker.exited
  cases wk.pc <;> simp

theorem step_effect (s s2 : Sys) (a : Action) (xs : List Int)
    (hq : Holds s.world.heap s.world.manager.config.buffer xs)
    (hcap : s.world.manager.config.max_buffer_size < UINT32_MOD)
    (hstep : step s a = some s2) :
    ∃ xs2, Holds s2.world.heap s2.world.manager.config.buffer xs2 ∧ Effect s xs s2 xs2 a := by
  have hsz : qsize s.world.manager.config.buffer = xs.length := holds_size _ _ _ hq
  cases a with
  | publish n =>
    simp only [step] at hstep
    cases hp : s.producer <;> rw [hp] at hstep <;> simp only [reduceCtorEq] at hstep
    cases hpub : tman_publish s.world n with
    | none => rw [hpub] at hstep; exact Option.noConfusion hstep
    | some r =>
    obtain ⟨conf1, hl, hlocked⟩ := tman_publish_inv s.world n r hpub
    obtain ⟨hbuf, hws⟩ := log_event_other s.world conf1 0 _ n WORK_EVENT
      (Or.inr (Or.inr (Or.inl rfl))) hl
    rw [hpub, ← hlocked] at hstep
    have hq1 : Holds s.world.heap conf1.buffer xs := by rw [hbuf]; exact hq
    by_cases hlt : qsize conf1.buffer < conf1.max_buffer_size
    · obtain ⟨w2, hpush, hq2, hws2, _⟩ :=
        tman_publish_locked_push ⟨s.world.heap, { s.world.manager with config := conf1 }⟩ n xs
          hq1 hlt (by rw [hws.2.1]; exact hcap)
      rw [hpush] at hstep
      simp only [Option.some.injEq] at hstep
      subst hstep
      refine ⟨xs ++ [n], hq2, hp, rfl, wsame_trans _ _ _ hws hws2, Or.inl ⟨?_, rfl, rfl⟩⟩
      have := hws.2.1
      simp only at this
      rw [hbuf, hsz, this] at hlt
      exact hlt
    · have hge : conf1.max_buffer_size ≤ qsize conf1.buffer := by omega
      rw [tman_publish_locked_wait ⟨s.world.heap, { s.world.manager with config := conf1 }⟩ n hge]
        at hstep
      simp only [Option.some.injEq] at hstep
      subst hstep
      refine ⟨xs, hq1, hp, rfl, hws, Or.inr ⟨?_, rfl, rfl⟩⟩
      have := hws.2.1
      simp only at this
      rw [hbuf, hsz, this] at hge
      exact hge
  | retry =>
    simp only [step] at hstep
    cases hp : s.producer <;> rw [hp] at hstep <;> simp only [reduceCtorEq] at hstep
    rename_i n
    by_cases hlt : qsize s.world.manager.config.buffer < s.world.manager.config.max_buffer_size
    · obtain ⟨w2, hpush, hq2, hws2, _⟩ := tman_publish_locked_push s.world n xs hq hlt hcap
      rw [hpush] at hstep
      simp only [Option.some.injEq] at hstep
      subst hstep
      exact ⟨xs ++ [n], hq2, n, hp, rfl, hws2, Or.inl ⟨by omega, rfl, rfl⟩⟩
    · have hge : s.world.manager.config.max_buffer_size ≤ qsize s.world.manager.config.buffer := by
        omega
      rw [tman_publish_locked_wait s.world n hge] at hstep
      simp only [Option.some.injEq] at hstep
      subst hstep
      exact ⟨xs, hq, n, hp, rfl, wsame_refl _, Or.inr ⟨by omega, rfl, rfl⟩⟩
  | sleep n =>
    simp only [step] at hstep
    cases hp : s.producer <;> rw [hp] at hstep <;> simp only [reduceCtorEq] at hstep
    simp only [tman_sleep] at hstep
    cases hl : log_event s.world.manager.config 0 NO_DATA SLEEP_EVENT n with
    | none => rw [hl] at hstep; exact Option.noConfusion hstep
    | some conf2 =>
    obtain ⟨hbuf, hws⟩ := log_event_other s.world conf2 0 NO_DATA n SLEEP_EVENT
      (Or.inr (Or.inr (Or.inr (Or.inl rfl)))) hl
    rw [hl] at hstep
    simp only [Option.some.injEq] at hstep
    subst hstep
    exact ⟨xs, by rw [← hbuf] at hq; exact hq, hp, rfl, rfl, hws, rfl⟩
  | close_log =>
    simp only [step] at hstep
    cases hp : s.producer <;> rw [hp] at hstep <;> simp only [reduceCtorEq] at hstep
    simp only [tman_close_log] at hstep
    cases hl : log_event s.world.manager.config 0 NO_DATA END_EVENT NO_DATA with
    | none => rw [hl] at hstep; exact Option.noConfusion hstep
    | some conf2 =>
    obtain ⟨hbuf, hws⟩ := log_event_other s.world conf2 0 NO_DATA NO_DATA END_EVENT
      (Or.inr (Or.inr (Or.inr (Or.inr rfl)))) hl
    rw [hl] at hstep
    simp only [Option.some.injEq] at hstep
    subst hstep
    exact ⟨xs, by rw [← hbuf] at hq; exact hq, hp, rfl, rfl, hws, rfl⟩
  | close_flag =>
    simp only [step] at hstep
    cases hp : s.producer <;> rw [hp] at hstep <;> simp only [reduceCtorEq] at hstep
    simp only [Option.some.injEq] at hstep
    subst hstep
    exact ⟨xs, hq, hp, rfl, rfl, rfl, rfl, rfl, rfl, rfl⟩
  | join =>
    simp only [step] at hstep
    cases hp : s.producer <;> rw [hp] at hstep <;> simp only [reduceCtorEq] at hstep
    by_cases hall : s.workers.all Worker.exited = true
    · rw [if_pos hall] at hstep
      simp only [Option.some.injEq] at hstep
      subst hstep
      refine ⟨xs, hq, hp, rfl, ?_, rfl, wsame_refl _, rfl⟩
      intro wk hwk
      exact (worker_exited_iff wk).mp (List.all_eq_true.mp hall wk hwk)
    · rw [if_neg hall] at hstep
      exact Option.noConfusion hstep
  | ask i =>
    simp only [step] at hstep
    cases hw : s.workers[i]? with
    | none => rw [hw] at hstep; exact Option.noConfusion hstep
    | some wk =>
      rw [hw] at hstep
      simp only at hstep
      cases hpc : wk.pc <;> rw [hpc] at hstep <;> simp only [reduceCtorEq] at hstep
      cases hl : log_event s.world.manager.config wk.sub.id NO_DATA ASK_EVENT NO_DATA with
      | none => rw [hl] at hstep; exact Option.noConfusion hstep
      | some conf2 =>
      obtain ⟨hbuf, hws⟩ := log_event_other s.world conf2 wk.sub.id NO_DATA NO_DATA ASK_EVENT
        (Or.inl rfl) hl
      rw [hl] at hstep
      simp only [Option.some.injEq] at hstep
      subst hstep
      exact ⟨xs, by rw [← hbuf] at hq; exact hq, wk, hw, hpc, rfl, rfl, hws, rfl⟩
  | request i =>
    simp only [step] at hstep
    cases hw : s.workers[i]? with
    | none => rw [hw] at hstep; exact Option.noConfusion hstep
    | some wk =>
      rw [hw] at hstep
      simp only at hstep
      cases hpc : wk.pc <;> rw [hpc] at hstep <;> simp only [reduceCtorEq] at hstep
      cases hcr : consumer_request_locked s.world wk.sub with
      | none => rw [hcr] at hstep; exact Option.noConfusion hstep
      | some r =>
      rcases consumer_request_locked_effect s.world wk.sub xs r hq hcr with
        ⟨hx, hc, hr⟩ | ⟨hx, hc, hr⟩ | ⟨x, xs2, w2, hx, hr, hq2, hws⟩
      · rw [hcr, hr] at hstep
        simp only [Option.some.injEq] at hstep
        subst hstep
        refine ⟨[], by rw [← hx]; exact hq, wk, hw, hpc, rfl, wsame_refl _, Or.inl ⟨hx, hc, rfl, ?_⟩⟩
        simp [NO_DATA]
      · rw [hcr, hr] at hstep
        simp only [Option.some.injEq] at hstep
        subst hstep
        exact ⟨[], by rw [← hx]; exact hq, wk, hw, hpc, rfl, wsame_refl _,
          Or.inr (Or.inl ⟨hx, hc, rfl, rfl⟩)⟩
      · rw [hcr, hr] at hstep
        simp only [Option.some.injEq] at hstep
        subst hstep
        exact ⟨xs2, hq2, wk, hw, hpc, rfl, hws, Or.inr (Or.inr ⟨x, hx, rfl⟩)⟩
  | complete i =>
    simp only [step] at hstep
    cases hw : s.workers[i]? with
    | none => rw [hw] at hstep; exact Option.noConfusion hstep
    | some wk =>
      rw [hw] at hstep
      simp only at hstep
      cases hpc : wk.pc <;> rw [hpc] at hstep <;> simp only [reduceCtorEq] at hstep
      rename_i n
      cases hc : consumer_complete s.world wk.sub n with
      | none => rw [hc] at hstep; exact Option.noConfusion hstep
      | some w2 =>
        rw [hc] at hstep
        simp only [Option.some.injEq] at hstep
        subst hstep
        obtain ⟨hh, hb, hf, hm, hcnt, hlog⟩ := consumer_complete_effect _ _ _ _ hc
        refine ⟨xs, ?_, wk, n, hw, hpc, rfl, rfl, rfl, hf, hm, hcnt, hlog⟩
        show Holds w2.heap w2.manager.config.buffer xs
        rw [hh, hb]
        exact hq

/-! ## Invariants of a run -/

theorem effect_queue (s s2 : Sys) (xs xs2 : List Int) (a : Action) (he : Effect s xs s2 xs2 a)
    (hlen : xs.length ≤ s.world.manager.config.max_buffer_size) :
    s2.world.manager.config.max_buffer_size = s.world.manager.config.max_buffer_size ∧
    xs2.length ≤ s.world.manager.config.max_buffer_size := by
  cases a with
  | publish n =>
    obtain ⟨_, _, hws, h | h⟩ := he
    · exact ⟨hws.2.1, by rw [h.2.1, List.length_append, List.length_singleton]; omega⟩
    · exact ⟨hws.2.1, by rw [h.2.1]; exact hlen⟩
  | retry =>
    obtain ⟨n, _, _, hws, h | h⟩ := he
    · exact ⟨hws.2.1, by rw [h.2.1, List.length_append, List.length_singleton]; omega⟩
    · exact ⟨hws.2.1, by rw [h.2.1]; exact hlen⟩
  | sleep n =>
    obtain ⟨_, _, _, hws, h⟩ := he
    exact ⟨hws.2.1, by rw [h]; exact hlen⟩
  | close_log =>
    obtain ⟨_, _, _, hws, h⟩ := he
    exact ⟨hws.2.1, by rw [h]; exact hlen⟩
  | close_flag =>
    obtain ⟨_, _, _, h, _, hm, _⟩ := he
    exact ⟨hm, by rw [h]; exact hlen⟩
  | join =>
    obtain ⟨_, _, _, _, hws, h⟩ := he
    exact ⟨hws.2.1, by rw [h]; exact hlen⟩
  | ask i =>
    obtain ⟨wk, _, _, _, _, hws, h⟩ := he
    exact ⟨hws.2.1, by rw [h]; exact hlen⟩
  | request i =>
    obtain ⟨wk, _, _, _, hws, h | h | ⟨x, h, _⟩⟩ := he
    · exact ⟨hws.2.1, by rw [h.2.2.1]; exact Nat.zero_le _⟩
    · exact ⟨hws.2.1, by rw [h.2.2.1]; exact Nat.zero_le _⟩
    · exact ⟨hws.2.1, by rw [h, List.length_cons] at hlen; omega⟩
  | complete i =>
    obtain ⟨wk, n, _, _, _, _, h, _, hm, _⟩ := he
    exact ⟨hm, by rw [h]; exact hlen⟩

/-- Along any run the queue stays a well-formed chain no longer than the
capacity, and the capacity does not change. -/
theorem run_queue (cap : Nat) (hcap : cap < UINT32_MOD) : ∀ (tr : List Action) (s s2 : Sys)
    (xs : List Int), Holds s.world.heap s.world.manager.config.buffer xs →
    s.world.manager.config.max_buffer_size = cap → xs.length ≤ cap →
    run s tr = some s2 →
    ∃ xs2, Holds s2.world.heap s2.world.manager.config.buffer xs2 ∧
      s2.world.manager.config.max_buffer_size = cap ∧ xs2.length ≤ cap
  | [], s, s2, xs, hq, hm, hl, hr => by
    simp only [run, Option.some.injEq] at hr
    subst hr
    exact ⟨xs, hq, hm, hl⟩
  | a :: tr, s, s2, xs, hq, hm, hl, hr => by
    simp only [run] at hr
    cases hs : step s a with
    | none => rw [hs] at hr; exact Option.noConfusion hr
    | some s1 =>
      rw [hs] at hr
      obtain ⟨xs1, hq1, he⟩ := step_effect s s1 a xs hq (by rw [hm]; exact hcap) hs
      obtain ⟨hm1, hl1⟩ := effect_queue s s1 xs xs1 a he (by rw [hm]; exact hl)
      exact run_queue cap hcap tr s1 s2 xs1 hq1 (by rw [hm1, hm]) (by rw [← hm]; exact hl1) hr

/-! ## Accounting along a run -/

theorem inflight_set : ∀ (ws : List Worker) (i : Nat) (wk v : Worker), ws[i]? = some wk →
    inflight (ws.set i v) + holding wk = inflight ws + holding v
  | [], i, wk, v, h => by simp at h
  | w :: ws, 0, wk, v, h => by
    simp only [List.getElem?_cons_zero, Option.some.injEq] at h
    subst h
    simp only [List.set, inflight]
    omega
  | w :: ws, i + 1, wk, v, h => by
    simp only [List.getElem?_cons_succ] at h
    have := inflight_set ws i wk v h
    simp only [List.set, inflight]
    omega

theorem flag_clear_of_producer (N : Nat) (P : List Int) (s : Sys) (xs : List Int)
    (hinv : Inv N P s xs) (h1 : s.producer ≠ ppc.joining) (h2 : s.producer ≠ ppc.closed) :
    s.world.manager.complete = false := by
  cases hc : s.world.manager.complete with
  | false => rfl
  | true =>
    rcases hinv.2.2.2.2.2.1 hc with h | h
    · exact absurd h h1
    · exact absurd h h2

theorem none_exited_of_flag_clear (N : Nat) (P : List Int) (s : Sys) (xs : List Int)
    (hinv : Inv N P s xs) (hf : s.world.manager.complete = false) :
    ∀ wk ∈ s.workers, wk.pc ≠ wpc.exited := by
  intro wk hwk hpc
  have := (hinv.2.2.2.2.2.2.1 wk hwk hpc).1
  rw [hf] at this
  exact Bool.noConfusion this

theorem none_exited_of_item (N : Nat) (P : List Int) (s : Sys) (x : Int) (xs : List Int)
    (hinv : Inv N P s (x :: xs)) : ∀ wk ∈ s.workers, wk.pc ≠ wpc.exited := by
  intro wk hwk hpc
  have := (hinv.2.2.2.2.2.2.1 wk hwk hpc).2
  exact List.noConfusion this

theorem effect_inv (N : Nat) (P : List Int) (s s2 : Sys) (xs xs2 : List Int) (a : Action)
    (hinv : Inv N P s xs) (he : Effect s xs s2 xs2 a)
    (hnd : ∀ n ∈ publishes [a], n ≠ NO_DATA) :
    Inv N (P ++ publishes [a]) s2 xs2 := by
  have hinv0 := hinv
  obtain ⟨hN, hcount, hcnt, hitems, hpub, hflag, hex, hclosed⟩ := hinv
  cases a with
  | publish n =>
    obtain ⟨hp, hw, ⟨hf, _, hc, hl⟩, h⟩ := he
    have hn : n ≠ NO_DATA := hnd n (by simp [publishes])
    have hff := flag_clear_of_producer N P s xs hinv0 (by rw [hp]; simp) (by rw [hp]; simp)
    have hne := none_exited_of_flag_clear N P s xs hinv0 hff
    have hf2 : s2.world.manager.complete = false := by rw [hf, hff]
    rw [hp] at hcount
    simp only [unpushed] at hcount
    simp only [publishes, List.length_append, List.length_singleton]
    rcases h with ⟨_, hxs, hp2⟩ | ⟨_, hxs, hp2⟩
    · refine ⟨by rw [hw]; exact hN, ?_, by rw [hc, hl]; exact hcnt, ?_, ?_, ?_, ?_, ?_⟩
      · rw [hl, hw, hxs, hp2]
        simp only [List.length_append, List.length_singleton, unpushed]
        omega
      · intro x hx
        rw [hxs] at hx
        rcases List.mem_append.mp hx with h | h
        · exact hitems x h
        · simp only [List.mem_singleton] at h; rw [h]; exact hn
      · intro m hm; rw [hp2] at hm; exact ppc.noConfusion hm
      · intro h; rw [hf2] at h; exact Bool.noConfusion h
      · intro wk hwk hpc; rw [hw] at hwk; exact absurd hpc (hne wk hwk)
      · intro h; rw [hp2] at h; exact ppc.noConfusion h
    · refine ⟨by rw [hw]; exact hN, ?_, by rw [hc, hl]; exact hcnt, ?_, ?_, ?_, ?_, ?_⟩
      · rw [hl, hw, hxs, hp2]
        simp only [unpushed, List.length_append, List.length_singleton]
        omega
      · rw [hxs]; exact hitems
      · intro m hm; rw [hp2] at hm; cases hm; exact hn
      · intro h; rw [hf2] at h; exact Bool.noConfusion h
      · intro wk hwk hpc; rw [hw] at hwk; exact absurd hpc (hne wk hwk)
      · intro h; rw [hp2] at h; exact ppc.noConfusion h
  | retry =>
    obtain ⟨n, hp, hw, ⟨hf, _, hc, hl⟩, h⟩ := he
    have hn : n ≠ NO_DATA := hpub n hp
    have hff := flag_clear_of_producer N P s xs hinv0 (by rw [hp]; simp) (by rw [hp]; simp)
    have hne := none_exited_of_flag_clear N P s xs hinv0 hff
    have hf2 : s2.world.manager.complete = false := by rw [hf, hff]
    rw [hp] at hcount
    simp only [unpushed] at hcount
    simp only [publishes, List.append_nil]
    rcases h with ⟨_, hxs, hp2⟩ | ⟨_, hxs, hp2⟩
    · refine ⟨by rw [hw]; exact hN, ?_, by rw [hc, hl]; exact hcnt, ?_, ?_, ?_, ?_, ?_⟩
      · rw [hl, hw, hxs, hp2]
        simp only [List.length_append, List.length_singleton, unpushed]
        omega
      · intro x hx
        rw [hxs] at hx
        rcases List.mem_append.mp hx with h | h
        · exact hitems x h
        · simp only [List.mem_singleton] at h; rw [h]; exact hn
      · intro m hm; rw [hp2] at hm; exact ppc.noConfusion hm
      · intro h; rw [hf2] at h; exact Bool.noConfusion h
      · intro wk hwk hpc; rw [hw] at hwk; exact absurd hpc (hne wk hwk)
      · intro h; rw [hp2] at h; exact ppc.noConfusion h
    · refine ⟨by rw [hw]; exact hN, ?_, by rw [hc, hl]; exact hcnt, ?_, ?_, ?_, ?_, ?_⟩
      · rw [hl, hw, hxs, hp2]
        simp only [unpushed, List.length_append, List.length_singleton]
        omega
      · rw [hxs]; exact hitems
      · intro m hm; rw [hp2] at hm; cases hm; exact hn
      · intro h; rw [hf2] at h; exact Bool.noConfusion h
      · intro wk hwk hpc; rw [hw] at hwk; exact absurd hpc (hne wk hwk)
      · intro h; rw [hp2] at h; exact ppc.noConfusion h
  | sleep n =>
    obtain ⟨hp, hp2, hw, ⟨hf, _, hc, hl⟩, hxs⟩ := he
    have hff := flag_clear_of_producer N P s xs hinv0 (by rw [hp]; simp) (by rw [hp]; simp)
    have hne := none_exited_of_flag_clear N P s xs hinv0 hff
    simp only [publishes, List.append_nil]
    refine ⟨by rw [hw]; exact hN, by rw [hl, hw, hxs, hp2, ← hp]; exact hcount,
      by rw [hc, hl]; exact hcnt, by rw [hxs]; exact hitems, ?_, ?_, ?_, ?_⟩
    · intro m hm; rw [hp2] at hm; exact ppc.noConfusion hm
    · intro h; rw [hf, hff] at h; exact Bool.noConfusion h
    · intro wk hwk hpc; rw [hw] at hwk; exact absurd hpc (hne wk hwk)
    · intro h; rw [hp2] at h; exact ppc.noConfusion h
  | close_log =>
    obtain ⟨hp, hp2, hw, ⟨hf, _, hc, hl⟩, hxs⟩ := he
    have hff := flag_clear_of_producer N P s xs hinv0 (by rw [hp]; simp) (by rw [hp]; simp)
    have hne := none_exited_of_flag_clear N P s xs hinv0 hff
    simp only [publishes, List.append_nil]
    refine ⟨by rw [hw]; exact hN, ?_,
      by rw [hc, hl]; exact hcnt, by rw [hxs]; exact hitems, ?_, ?_, ?_, ?_⟩
    · rw [hl, hw, hxs, hp2]; rw [hp] at hcount; exact hcount
    · intro m hm; rw [hp2] at hm; exact ppc.noConfusion hm
    · intro h; rw [hf, hff] at h; exact Bool.noConfusion h
    · intro wk hwk hpc; rw [hw] at hwk; exact absurd hpc (hne wk hwk)
    · intro h; rw [hp2] at h; exact ppc.noConfusion h
  | close_flag =>
    obtain ⟨hp, hp2, hw, hxs, hf, _, hc, hl⟩ := he
    have hff := flag_clear_of_producer N P s xs hinv0 (by rw [hp]; simp) (by rw [hp]; simp)
    have hne := none_exited_of_flag_clear N P s xs hinv0 hff
    simp only [publishes, List.append_nil]
    refine ⟨by rw [hw]; exact hN, ?_,
      by rw [hc, hl]; exact hcnt, by rw [hxs]; exact hitems, ?_, ?_, ?_, ?_⟩
    · rw [hl, hw, hxs, hp2]; rw [hp] at hcount; exact hcount
    · intro m hm; rw [hp2] at hm; exact ppc.noConfusion hm
    · intro _; exact Or.inl hp2
    · intro wk hwk hpc; rw [hw] at hwk; exact absurd hpc (hne wk hwk)
    · intro h; rw [hp2] at h; exact ppc.noConfusion h
  | join =>
    obtain ⟨hp, hp2, hall, hw, ⟨hf, _, hc, hl⟩, hxs⟩ := he
    simp only [publishes, List.append_nil]
    refine ⟨by rw [hw]; exact hN, ?_,
      by rw [hc, hl]; exact hcnt, by rw [hxs]; exact hitems, ?_, ?_, ?_, ?_⟩
    · rw [hl, hw, hxs, hp2]; rw [hp] at hcount; exact hcount
    · intro m hm; rw [hp2] at hm; exact ppc.noConfusion hm
    · intro _; exact Or.inr hp2
    · intro wk hwk hpc; rw [hw] at hwk; rw [hf, hxs]; exact hex wk hwk hpc
    · intro _ wk hwk; rw [hw] at hwk; exact hall wk hwk
  | ask i =>
    obtain ⟨wk, hwi, hpc, hw, hp2, ⟨hf, _, hc, hl⟩, hxs⟩ := he
    have hmem : wk ∈ s.workers := List.getElem?_mem hwi
    have hin := inflight_set s.workers i wk { wk with pc := wpc.requesting } hwi
    have h1 : holding wk = 0 := by simp only [holding, hpc]
    have h2 : holding ({ wk with pc := wpc.requesting } : Worker) = 0 := rfl
    simp only [publishes, List.append_nil]
    refine ⟨by rw [hw, List.length_set]; exact hN, ?_,
      by rw [hc, hl]; exact hcnt, by rw [hxs]; exact hitems, ?_, ?_, ?_, ?_⟩
    · rw [hl, hw, hxs, hp2]; omega
    · intro m hm; rw [hp2] at hm; exact hpub m hm
    · intro h; rw [hf] at h; rw [hp2]; exact hflag h
    · intro v hv hvpc
      rw [hw] at hv
      rcases List.mem_or_eq_of_mem_set hv with h | h
      · rw [hf, hxs]; exact hex v h hvpc
      · rw [h] at hvpc; exact wpc.noConfusion hvpc
    · intro h
      rw [hp2] at h
      have := hclosed h wk hmem
      rw [hpc] at this
      exact wpc.noConfusion this
  | request i =>
    obtain ⟨wk, hwi, hpc, hp2, ⟨hf, _, hc, hl⟩, h⟩ := he
    have hmem : wk ∈ s.workers := List.getElem?_mem hwi
    have h1 : holding wk = 0 := by simp only [holding, hpc]
    have hnc : s.producer ≠ ppc.closed := by
      intro h
      have := hclosed h wk hmem
      rw [hpc] at this
      exact wpc.noConfusion this
    simp only [publishes, List.append_nil]
    rcases h with ⟨hx, hfl, hxs, hw⟩ | ⟨hx, hfl, hxs, hw⟩ | ⟨x, hx, hw⟩
    · have hin := inflight_set s.workers i wk { wk with pc := wpc.exited } hwi
      have h2 : holding ({ wk with pc := wpc.exited } : Worker) = 0 := rfl
      refine ⟨by rw [hw, List.length_set]; exact hN, ?_,
        by rw [hc, hl]; exact hcnt, by rw [hxs]; simp, ?_, ?_, ?_, ?_⟩
      · rw [hl, hw, hxs, hp2]; rw [hx] at hcount; omega
      · intro m hm; rw [hp2] at hm; exact hpub m hm
      · intro h; rw [hf] at h; rw [hp2]; exact hflag h
      · intro v _ _; exact ⟨by rw [hf]; exact hfl, hxs⟩
      · intro h; rw [hp2] at h; exact absurd h hnc
    · refine ⟨by rw [hw]; exact hN, ?_,
        by rw [hc, hl]; exact hcnt, by rw [hxs]; simp, ?_, ?_, ?_, ?_⟩
      · rw [hl, hw, hxs, hp2]; rw [hx] at hcount; exact hcount
      · intro m hm; rw [hp2] at hm; exact hpub m hm
      · intro h; rw [hf] at h; rw [hp2]; exact hflag h
      · intro v hv hvpc; rw [hw] at hv; rw [hf, hxs]
        have := hex v hv hvpc
        exact ⟨this.1, rfl⟩
      · intro h; rw [hp2] at h; exact absurd h hnc
    · have hxn : x ≠ NO_DATA := hitems x (by rw [hx]; exact List.mem_cons_self _ _)
      rw [if_pos hxn] at hw
      have hin := inflight_set s.workers i wk { wk with pc := wpc.working x } hwi
      have h2 : holding ({ wk with pc := wpc.working x } : Worker) = 1 := rfl
      have hne : ∀ v ∈ s.workers, v.pc ≠ wpc.exited := by
        rw [hx] at hinv0
        exact none_exited_of_item N P s x xs2 hinv0
      refine ⟨by rw [hw, List.length_set]; exact hN, ?_,
        by rw [hc, hl]; exact hcnt, ?_, ?_, ?_, ?_, ?_⟩
      · rw [hl, hw, hp2]; rw [hx, List.length_cons] at hcount; omega
      · intro y hy; exact hitems y (by rw [hx]; exact List.mem_cons_of_mem _ hy)
      · intro m hm; rw [hp2] at hm; exact hpub m hm
      · intro h; rw [hf] at h; rw [hp2]; exact hflag h
      · intro v hv hvpc
        rw [hw] at hv
        rcases List.mem_or_eq_of_mem_set hv with h | h
        · exact absurd hvpc (hne v h)
        · rw [h] at hvpc; exact wpc.noConfusion hvpc
      · intro h; rw [hp2] at h; exact absurd h hnc
  | complete i =>
    obtain ⟨wk, n, hwi, hpc, hw, hp2, hxs, hf, _, hc, hl⟩ := he
    have hmem : wk ∈ s.workers := List.getElem?_mem hwi
    have hin := inflight_set s.workers i wk { wk with pc := wpc.asking } hwi
    have h1 : holding wk = 1 := by simp only [holding, hpc]
    have h2 : holding ({ wk with pc := wpc.asking } : Worker) = 0 := rfl
    simp only [publishes, List.append_nil]
    refine ⟨by rw [hw, List.length_set]; exact hN, ?_, ?_, by rw [hxs]; exact hitems,
      ?_, ?_, ?_, ?_⟩
    · rw [hl, hw, hxs, hp2]; omega
    · rw [hc, hl, hcnt]
      simp only [UINT32_MOD]
      omega
    · intro m hm; rw [hp2] at hm; exact hpub m hm
    · intro h; rw [hf] at h; rw [hp2]; exact hflag h
    · intro v hv hvpc
      rw [hw] at hv
      rcases List.mem_or_eq_of_mem_set hv with h | h
      · rw [hf, hxs]; exact hex v h hvpc
      · rw [h] at hvpc; exact wpc.noConfusion hvpc
    · intro h
      rw [hp2] at h
      have := hclosed h wk hmem
      rw [hpc] at this
      exact wpc.noConfusion this

theorem publishes_cons (a : Action) (tr : List Action) :
    publishes (a :: tr) = publishes [a] ++ publishes tr := by
  cases a <;> simp [publishes]

theorem run_inv (N cap : Nat) (hcap : cap < UINT32_MOD) : ∀ (tr : List Action) (s s2 : Sys)
    (P : List Int) (xs : List Int), Holds s.world.heap s.world.manager.config.buffer xs →
    s.world.manager.config.max_buffer_size = cap → xs.length ≤ cap → Inv N P s xs →
    (∀ n ∈ publishes tr, n ≠ NO_DATA) → run s tr = some s2 →
    ∃ xs2, Holds s2.world.heap s2.world.manager.config.buffer xs2 ∧
      Inv N (P ++ publishes tr) s2 xs2
  | [], s, s2, P, xs, hq, _, _, hinv, _, hr => by
    simp only [run, Option.some.injEq] at hr
    subst hr
    exact ⟨xs, hq, by simpa [publishes] using hinv⟩
  | a :: tr, s, s2, P, xs, hq, hm, hl, hinv, hnd, hr => by
    simp only [run] at hr
    cases hs : step s a with
    | none => rw [hs] at hr; exact Option.noConfusion hr
    | some s1 =>
      rw [hs] at hr
      rw [publishes_cons] at hnd
      obtain ⟨xs1, hq1, he⟩ := step_effect s s1 a xs hq (by rw [hm]; exact hcap) hs
      obtain ⟨hm1, hl1⟩ := effect_queue s s1 xs xs1 a he (by rw [hm]; exact hl)
      have hinv1 := effect_inv N P s s1 xs xs1 a hinv he
        (fun n hn => hnd n (List.mem_append_left _ hn))
      obtain ⟨xs2, hq2, hinv2⟩ := run_inv N cap hcap tr s1 s2 (P ++ publishes [a]) xs1 hq1
        (by rw [hm1, hm]) (by rw [← hm]; exact hl1) hinv1
        (fun n hn => hnd n (List.mem_append_right _ hn)) hr
      refine ⟨xs2, hq2, ?_⟩
      rw [publishes_cons, ← List.append_assoc]
      exact hinv2

theorem inflight_spawned (l : List Nat) :
    inflight (l.map (fun i => (⟨⟨i + 1⟩, wpc.asking⟩ : Worker))) = 0 := by
  induction l with
  | nil => rfl
  | cons a l ih => simp only [List.map_cons, inflight, ih]; rfl

theorem inv_init (cap N : Nat) (raw_reports : Nat → Nat) :
    Inv N [] (tman_init cap N false raw_reports) [] := by
  refine ⟨by simp [tman_init], ?_, rfl, by simp, ?_, ?_, ?_, ?_⟩
  · show 0 = 0 + inflight ((List.range N).map (fun i => (⟨⟨i + 1⟩, wpc.asking⟩ : Worker))) + 0 + 0
    rw [inflight_spawned]
  · intro n h; exact ppc.noConfusion h
  · intro h; exact Bool.noConfusion h
  · intro wk hwk hpc
    simp only [tman_init, List.mem_map, List.mem_range] at hwk
    obtain ⟨i, _, hi⟩ := hwk
    rw [← hi] at hpc
    exact wpc.noConfusion hpc
  · intro h; exact ppc.noConfusion h

theorem inflight_exited : ∀ (ws : List Worker), (∀ wk ∈ ws, wk.pc = wpc.exited) → inflight ws = 0
  | [], _ => rfl
  | w :: ws, h => by
    have hw : holding w = 0 := by
      simp only [holding, h w (List.mem_cons_self _ _)]
    simp only [inflight, hw, inflight_exited ws (fun v hv => h v (List.mem_cons_of_mem _ hv))]

/-! ## The calls on printable values -/

theorem fmt_d_ge (w : Nat) (v : Int) : w ≤ (fmt_d w v).length := by
  unfold fmt_d
  rw [String.length_append]
  show w ≤ (List.replicate (w - (toString v).length) ' ').length + (toString v).length
  rw [List.length_replicate]
  omega

theorem sprintf5_inv (s t : String) (h : sprintf5 s = some t) : t = s ∧ s.length ≤ 4 := by
  unfold sprintf5 at h
  by_cases hl : s.length + 1 ≤ 5
  · rw [if_pos hl] at h
    exact ⟨(Option.some.inj h).symm, by omega⟩
  · rw [if_neg hl] at h
    exact Option.noConfusion h

/-- A value field that `log_event` wrote without overrun shows the value. -/
theorem nstr_of_inv (n : Int) (ns : String) (h : nstr_of n = some ns) : shows_value n ns := by
  unfold nstr_of at h
  by_cases hn : n = NO_DATA
  · subst hn
    exact ⟨fun _ => (Option.some.inj h).symm, fun hne => absurd rfl hne⟩
  · rw [if_pos hn] at h
    obtain ⟨ht, hlen⟩ := sprintf5_inv _ _ h
    refine ⟨fun he => absurd he hn, fun _ => ?_⟩
    subst ht
    exact ⟨by have := fmt_d_ge 4 n; omega, rfl⟩

/-- A queue field that `log_event` wrote without overrun shows the size. -/
theorem qstr_of_inv (q : Int) (qs : String) (h : qstr_of q = some qs) : shows_size q qs := by
  unfold qstr_of at h
  by_cases hq : q = NO_DATA
  · subst hq
    exact ⟨fun _ => (Option.some.inj h).symm, fun hne => absurd rfl hne⟩
  · rw [if_pos hq] at h
    obtain ⟨ht, hlen⟩ := sprintf5_inv _ _ h
    refine ⟨fun he => absurd he hq, fun _ => ⟨fmt_d 2 q, ht, ?_, rfl⟩⟩
    rw [String.length_append] at hlen
    have h2 : "Q=".length = 2 := rfl
    have := fmt_d_ge 2 q
    omega

theorem tman_publish_push (w : World) (n : Int) (xs : List Int)
    (hq : Holds w.heap w.manager.config.buffer xs)
    (hlt : qsize w.manager.config.buffer < w.manager.config.max_buffer_size)
    (hcap : w.manager.config.max_buffer_size < UINT32_MOD)
    (h99 : qsize w.manager.config.buffer ≤ 99) (hlo : -999 ≤ n) (hhi : n ≤ 9999) :
    ∃ w2 qt ns, tman_publish w n = some (Call.returned () w2) ∧
      Holds w2.heap w2.manager.config.buffer (xs ++ [n]) ∧
      qsize w2.manager.config.buffer = qsize w.manager.config.buffer + 1 ∧
      w2.manager.config.logfile = w.manager.config.logfile ++
        [⟨0, "Q=" ++ qt, WORK_EVENT, ns⟩] ∧
      right_justified 2 (qsize w.manager.config.buffer : Int) qt ∧ nstr_of n = some ns := by
  have hb : xs.length + 1 < UINT32_MOD := by
    rw [← holds_size _ _ _ hq]; omega
  obtain ⟨h2, q2, hp, hq2, hs2⟩ := qpush_holds _ _ xs n hq hb
  obtain ⟨qt, hqt, hrj⟩ := qstr_of_size _ h99
  obtain ⟨ns, hns, _⟩ := nstr_of_some n hlo hhi
  have hnot : ¬ w.manager.config.max_buffer_size ≤ qsize w.manager.config.buffer := by omega
  refine ⟨⟨h2, { w.manager with config := { w.manager.config with
      buffer := q2,
      master_report :=
        { w.manager.config.master_report with
          works := (w.manager.config.master_report.works + 1) % UINT32_MOD },
      logfile := w.manager.config.logfile ++ [⟨0, "Q=" ++ qt, WORK_EVENT, ns⟩] } }⟩, qt, ns,
    ?_, hq2, hs2, rfl, hrj, hns⟩
  simp only [tman_publish, log_event_work _ _ _ _ _ _ hqt hns, tman_publish_locked, hnot,
    if_false, hp]

theorem tman_publish_wait (w : World) (n : Int)
    (hge : w.manager.config.max_buffer_size ≤ qsize w.manager.config.buffer)
    (h99 : qsize w.manager.config.buffer ≤ 99) (hlo : -999 ≤ n) (hhi : n ≤ 9999) :
    ∃ w2 qt ns, tman_publish w n = some (Call.waiting w2) ∧
      w2.heap = w.heap ∧ w2.manager.config.buffer = w.manager.config.buffer ∧
      w2.manager.config.max_buffer_size = w.manager.config.max_buffer_size ∧
      w2.manager.config.logfile = w.manager.config.logfile ++
        [⟨0, "Q=" ++ qt, WORK_EVENT, ns⟩] ∧
      right_justified 2 (qsize w.manager.config.buffer : Int) qt ∧ nstr_of n = some ns := by
  obtain ⟨qt, hqt, hrj⟩ := qstr_of_size _ h99
  obtain ⟨ns, hns, _⟩ := nstr_of_some n hlo hhi
  refine ⟨⟨w.heap, { w.manager with config := { w.manager.config with
      master_report :=
        { w.manager.config.master_report with
          works := (w.manager.config.master_report.works + 1) % UINT32_MOD },
      logfile := w.manager.config.logfile ++ [⟨0, "Q=" ++ qt, WORK_EVENT, ns⟩] } }⟩, qt, ns,
    ?_, rfl, rfl, rfl, rfl, hrj, hns⟩
  simp only [tman_publish, log_event_work _ _ _ _ _ _ hqt hns, tman_publish_locked, hge,
    if_true]

/-- On a queue holding `x :: xs` with `x` printable and at most 99 items
behind it, `consumer_request` returns `x`, whatever the flag, and logs the Ask
line and the Recieve line. -/
theorem consumer_request_pop (w : World) (sub : tsub_t) (x : Int) (xs : List Int)
    (hq : Holds w.heap w.manager.config.buffer (x :: xs))
    (h99 : xs.length ≤ 99) (hlo : -999 ≤ x) (hhi : x ≤ 9999) :
    ∃ w2 qt ns, consumer_request w sub = some (Call.returned x w2) ∧
      Holds w2.heap w2.manager.config.buffer xs ∧
      qsize w2.manager.config.buffer + 1 = qsize w.manager.config.buffer ∧
      w2.manager.complete = w.manager.complete ∧
      w2.manager.config.logfile = w.manager.config.logfile ++
        [⟨sub.id, "    ", ASK_EVENT, "    "⟩, ⟨sub.id, "Q=" ++ qt, RECIEVE_EVENT, ns⟩] ∧
      right_justified 2 (xs.length : Int) qt ∧ nstr_of x = some ns := by
  obtain ⟨h1, q1, hp, hq1, hs1⟩ := qpop_holds _ _ x xs hq
  have h0 : ¬ qsize w.manager.config.buffer = 0 := by
    rw [holds_size _ _ _ hq]; simp
  have hsz : qsize q1 = xs.length := holds_size _ _ _ hq1
  obtain ⟨qt, hqt, hrj⟩ := qstr_of_size xs.length h99
  obtain ⟨ns, hns, _⟩ := nstr_of_some x hlo hhi
  rw [← hsz] at hqt
  refine ⟨⟨h1, { w.manager with config := { w.manager.config with
      buffer := q1,
      master_report :=
        { w.manager.config.master_report with
          asks := (w.manager.config.master_report.asks + 1) % UINT32_MOD,
          recieves := (w.manager.config.master_report.recieves + 1) % UINT32_MOD },
      logfile := w.manager.config.logfile ++ [⟨sub.id, "    ", ASK_EVENT, "    "⟩]
        ++ [⟨sub.id, "Q=" ++ qt, RECIEVE_EVENT, ns⟩] } }⟩, qt, ns, ?_, hq1, hs1, rfl, ?_, hrj, hns⟩
  · simp only [consumer_request,
      log_event_ask _ _ _ _ _ _ qstr_of_no_data nstr_of_no_data, consumer_request_locked, h0,
      if_false, hp, log_event_recieve _ _ _ _ _ _ hqt hns]
  · simp

/-- On an empty queue `consumer_request` logs the Ask line and then returns
`NO_DATA` when the flag is set, and waits when it is clear; heap and queue stay
as they were. -/
theorem consumer_request_empty (w : World) (sub : tsub_t)
    (h0 : qsize w.manager.config.buffer = 0) :
    ∃ w2, consumer_request w sub =
        some (if w.manager.complete then Call.returned NO_DATA w2 else Call.waiting w2) ∧
      w2.heap = w.heap ∧ w2.manager.config.buffer = w.manager.config.buffer ∧
      w2.manager.config.logfile = w.manager.config.logfile ++
        [⟨sub.id, "    ", ASK_EVENT, "    "⟩] := by
  refine ⟨⟨w.heap, { w.manager with config := { w.manager.config with
      master_report :=
        { w.manager.config.master_report with
          asks := (w.manager.config.master_report.asks + 1) % UINT32_MOD },
      logfile := w.manager.config.logfile ++ [⟨sub.id, "    ", ASK_EVENT, "    "⟩] } }⟩,
    ?_, rfl, rfl, rfl⟩
  simp only [consumer_request, log_event_ask _ _ _ _ _ _ qstr_of_no_data nstr_of_no_data,
    consumer_request_locked, h0, if_true]
  cases w.manager.complete <;> rfl

/-! ## The overrun of the text buffers -/

/-- C8 (code at the failing input). `tman_publish(10000)` on a fresh manager of
capacity 4: the queue is below capacity, but the Work event is logged first and
`sprintf(nstr, "%4d", 10000)` writes six bytes into the five-byte `nstr`; the
call is undefined before the capacity test and the push are reached. -/
theorem tman_publish_overrun :
    qsize (tman_init 4 2 false (fun _ => 0)).world.manager.config.buffer
      < (tman_init 4 2 false (fun _ => 0)).world.manager.config.max_buffer_size ∧
    sprintf5 (fmt_d 4 10000) = none ∧
    tman_publish (tman_init 4 2 false (fun _ => 0)).world 10000 = none := by
  refine ⟨by decide, by decide, by decide⟩

/-- A publish of a value that does not fit `nstr` is no step of a fault-free
run. -/
theorem step_publish_overrun (s : Sys) (n : Int) (h : nstr_of n = none) :
    step s (Action.publish n) = none := by
  have hl : tman_publish s.world n = none := by
    simp only [tman_publish, log_event_overrun _ _ _ _ _ (Or.inr h)]
  simp only [step, hl]
  cases s.producer <;> rfl

/-! ## The Work line -/

/-- C9 (counterexample). Publishing 10 into the empty queue of a fresh manager
logs the Work line with queue field `Q= 0`, while `tman_publish` leaves the
queue at size 1, which would render as `Q= 1`. -/
theorem work_line_not_resulting_size :
    ∃ w2, tman_publish (tman_init 4 2 false (fun _ => 0)).world 10 = some (Call.returned () w2) ∧
      w2.manager.config.logfile = [⟨0, "Q= 0", WORK_EVENT, "  10"⟩] ∧
      qsize w2.manager.config.buffer = 1 ∧
      qstr_of (to_int (qsize w2.manager.config.buffer)) = some "Q= 1" ∧
      "Q= 0" ≠ "Q= 1" :=
  ⟨_, rfl, by decide, by decide, by decide, by decide⟩

/-- C9 (amended). For every queue below capacity holding at most 99 items and
every item `n` from -999 to 9999, `tman_publish` pushes `n`, and the Work line
it logs carries the rendering of `n` and the queue size it found, before the
insertion: its queue field is `Q=` followed by that size right-justified in 2
characters, and the queue is left one item larger. -/
theorem work_line_size_before (w : World) (n : Int) (xs : List Int)
    (hq : Holds w.heap w.manager.config.buffer xs)
    (hlt : qsize w.manager.config.buffer < w.manager.config.max_buffer_size)
    (hcap : w.manager.config.max_buffer_size < UINT32_MOD)
    (h99 : qsize w.manager.config.buffer ≤ 99) (hlo : -999 ≤ n) (hhi : n ≤ 9999) :
    ∃ w2 qt ns, tman_publish w n = some (Call.returned () w2) ∧
      w2.manager.config.logfile = w.manager.config.logfile ++
        [⟨0, "Q=" ++ qt, WORK_EVENT, ns⟩] ∧
      right_justified 2 (qsize w.manager.config.buffer : Int) qt ∧
      shows_value n ns ∧
      qsize w2.manager.config.buffer = qsize w.manager.config.buffer + 1 := by
  obtain ⟨w2, qt, ns, hp, _, hs2, hl, hrj, hns⟩ := tman_publish_push w n xs hq hlt hcap h99 hlo hhi
  exact ⟨w2, qt, ns, hp, hl, hrj, nstr_of_inv n ns hns, hs2⟩

/-- Witness of C9 (amended): publishing 10 into a fresh manager of capacity 4. -/
theorem work_line_size_before_witness :
    Holds (tman_init 4 2 false (fun _ => 0)).world.heap
      (tman_init 4 2 false (fun _ => 0)).world.manager.config.buffer [] ∧
    ∃ w2 qt ns, tman_publish (tman_init 4 2 false (fun _ => 0)).world 10
        = some (Call.returned () w2) ∧
      w2.manager.config.logfile = (tman_init 4 2 false (fun _ => 0)).world.manager.config.logfile ++
        [⟨0, "Q=" ++ qt, WORK_EVENT, ns⟩] ∧
      right_justified 2
        (qsize (tman_init 4 2 false (fun _ => 0)).world.manager.config.buffer : Int) qt ∧
      shows_value 10 ns ∧
      qsize w2.manager.config.buffer
        = qsize (tman_init 4 2 false (fun _ => 0)).world.manager.config.buffer + 1 :=
  ⟨holds_qcreate,
    work_line_size_before (tman_init 4 2 false (fun _ => 0)).world 10 [] holds_qcreate
      (by decide) (by decide) (by decide) (by decide) (by decide)⟩

/-! ## No item loss -/

/-- C4 (counterexample). One worker, items -1 and 5 published, then close: the
worker dequeues -1, takes it for the exit signal and leaves its loop while 5 is
still queued; `tman_close` joins it with the queue holding one item and no
Complete event logged for either of the two published items. -/
theorem item_lost_after_no_data :
    ∃ s, run (tman_init 4 1 false (fun _ => 0))
        [Action.publish (-1), Action.publish 5, Action.ask 0, Action.request 0,
          Action.close_log, Action.close_flag, Action.join] = some s ∧
      s.producer = ppc.closed ∧
      s.workers = [⟨⟨1⟩, wpc.exited⟩] ∧
      (publishes [Action.publish (-1), Action.publish 5, Action.ask 0, Action.request 0,
          Action.close_log, Action.close_flag, Action.join]).length = 2 ∧
      qsize s.world.manager.config.buffer = 1 ∧
      s.world.manager.config.master_report.completes = 0 ∧
      completes_logged s.world.manager.config.logfile = 0 :=
  ⟨_, rfl, by decide, by decide, by decide, by decide, by decide, by decide⟩

/-- C4 (amended). For every worker count N >= 1, every capacity, and every
schedule of published items from -999 to 9999 none of which equals `NO_DATA`
(-1), run without fault (no `log_event` call overruns its text buffers) from a
manager whose termination flag starts clear: a worker that has left its loop
did so with the flag set and the queue empty, and once `tman_close` has joined
all workers the queue is empty, every worker has left its loop, the log holds
exactly one Complete line per `tman_publish` call, and the master Complete
counter is that number (modulo 2^32). -/
theorem no_item_loss (cap N : Nat) (raw_reports : Nat → Nat) (tr : List Action) (s : Sys)
    (hN : 1 ≤ N) (hcap : cap < UINT32_MOD)
    (hitems : ∀ n ∈ publishes tr, n ≠ NO_DATA ∧ -999 ≤ n ∧ n ≤ 9999)
    (hrun : run (tman_init cap N false raw_reports) tr = some s) :
    (∀ wk ∈ s.workers, wk.pc = wpc.exited →
      s.world.manager.complete = true ∧ qsize s.world.manager.config.buffer = 0) ∧
    (s.producer = ppc.closed →
      qsize s.world.manager.config.buffer = 0 ∧
      Holds s.world.heap s.world.manager.config.buffer [] ∧
      (∀ wk ∈ s.workers, wk.pc = wpc.exited) ∧
      completes_logged s.world.manager.config.logfile = (publishes tr).length ∧
      s.world.manager.config.master_report.completes = (publishes tr).length % UINT32_MOD) := by
  obtain ⟨xs, hq, hinv⟩ := run_inv N cap hcap tr _ s [] [] holds_qcreate rfl (Nat.zero_le _)
    (inv_init cap N raw_reports) (fun n hn => (hitems n hn).1) hrun
  obtain ⟨hlen, hcount, hcnt, _, _, _, hex, hcl⟩ := hinv
  refine ⟨?_, ?_⟩
  · intro wk hwk hpc
    obtain ⟨hf, hxs⟩ := hex wk hwk hpc
    refine ⟨hf, ?_⟩
    rw [holds_size _ _ _ hq, hxs]
    rfl
  · intro hclosed
    have hall := hcl hclosed
    obtain ⟨wk, hwk⟩ : ∃ wk, wk ∈ s.workers := by
      cases hws : s.workers with
      | nil => rw [hws] at hlen; simp at hlen; omega
      | cons w ws => exact ⟨w, List.mem_cons_self _ _⟩
    have hxs : xs = [] := (hex wk hwk (hall wk hwk)).2
    subst hxs
    rw [inflight_exited s.workers hall, hclosed] at hcount
    simp only [List.nil_append, List.length_nil, unpushed, Nat.add_zero] at hcount
    refine ⟨holds_size _ _ _ hq, hq, hall, hcount.symm, ?_⟩
    rw [hcnt, ← hcount]

/-- Witness of C4 (amended): two workers, capacity 4, items 10, 20, 30, then
close; the schedule ends with all workers joined. -/
theorem no_item_loss_witness :
    (1 : Nat) ≤ 2 ∧ (4 : Nat) < UINT32_MOD ∧
    publishes
        [Action.publish 10, Action.ask 0, Action.publish 20, Action.request 0, Action.ask 1,
          Action.request 1, Action.publish 30, Action.complete 0, Action.ask 0,
          Action.request 0, Action.complete 0, Action.complete 1, Action.ask 0, Action.ask 1,
          Action.request 0, Action.close_log, Action.close_flag, Action.request 0,
          Action.request 1, Action.join] = [10, 20, 30] ∧
    ∃ s, run (tman_init 4 2 false (fun _ => 0))
        [Action.publish 10, Action.ask 0, Action.publish 20, Action.request 0, Action.ask 1,
          Action.request 1, Action.publish 30, Action.complete 0, Action.ask 0,
          Action.request 0, Action.complete 0, Action.complete 1, Action.ask 0, Action.ask 1,
          Action.request 0, Action.close_log, Action.close_flag, Action.request 0,
          Action.request 1, Action.join] = some s ∧
      s.producer = ppc.closed ∧
      qsize s.world.manager.config.buffer = 0 ∧
      Holds s.world.heap s.world.manager.config.buffer [] ∧
      (∀ wk ∈ s.workers, wk.pc = wpc.exited) ∧
      completes_logged s.world.manager.config.logfile = 3 ∧
      s.world.manager.config.master_report.completes = 3 % UINT32_MOD :=
  ⟨by decide, by decide, by decide, _, rfl, rfl,
    (no_item_loss 4 2 (fun _ => 0)
      [Action.publish 10, Action.ask 0, Action.publish 20, Action.request 0, Action.ask 1,
        Action.request 1, Action.publish 30, Action.complete 0, Action.ask 0,
        Action.request 0, Action.complete 0, Action.complete 1, Action.ask 0, Action.ask 1,
        Action.request 0, Action.close_log, Action.close_flag, Action.request 0,
        Action.request 1, Action.join] _
      (by decide) (by decide) (by decide) rfl).2 rfl⟩

/-! ## The optional fields -/

theorem report_defined (conf : tconf_t) (id : Nat) (event : String)
    (h : event ≠ COMPLETE_EVENT) : ∃ conf1, log_event_to_report conf id event = some conf1 := by
  unfold log_event_to_report
  split_ifs
  all_goals exact ⟨_, rfl⟩

/-- The critical section of `consumer_request` on a queue holding `x :: xs`
with `x` printable and at most 99 items behind it. -/
theorem consumer_request_locked_pop (w : World) (sub : tsub_t) (x : Int) (xs : List Int)
    (hq : Holds w.heap w.manager.config.buffer (x :: xs))
    (h99 : xs.length ≤ 99) (hlo : -999 ≤ x) (hhi : x ≤ 9999) :
    ∃ w2 qt ns, consumer_request_locked w sub = some (Call.returned x w2) ∧
      w2.manager.config.logfile = w.manager.config.logfile ++
        [⟨sub.id, "Q=" ++ qt, RECIEVE_EVENT, ns⟩] ∧
      right_justified 2 (xs.length : Int) qt ∧ nstr_of x = some ns := by
  obtain ⟨h1, q1, hp, hq1, _⟩ := qpop_holds _ _ x xs hq
  have h0 : ¬ qsize w.manager.config.buffer = 0 := by
    rw [holds_size _ _ _ hq]; simp
  have hsz : qsize q1 = xs.length := holds_size _ _ _ hq1
  obtain ⟨qt, hqt, hrj⟩ := qstr_of_size xs.length h99
  obtain ⟨ns, hns, _⟩ := nstr_of_some x hlo hhi
  rw [← hsz] at hqt
  refine ⟨⟨h1, { w.manager with config := { w.manager.config with
      buffer := q1,
      master_report :=
        { w.manager.config.master_report with
          recieves := (w.manager.config.master_report.recieves + 1) % UINT32_MOD },
      logfile := w.manager.config.logfile ++ [⟨sub.id, "Q=" ++ qt, RECIEVE_EVENT, ns⟩] } }⟩,
    qt, ns, ?_, rfl, hrj, hns⟩
  simp only [consumer_request_locked, h0, if_false, hp, log_event_recieve _ _ _ _ _ _ hqt hns]

/-- C10 (counterexample). `tman_publish(-1)` on a fresh manager logs a Work line
whose value field is four blanks, which does not show the number -1. -/
theorem work_line_blank_value :
    ∃ w2, tman_publish (tman_init 4 2 false (fun _ => 0)).world (-1)
        = some (Call.returned () w2) ∧
      w2.manager.config.logfile = [⟨0, "Q= 0", WORK_EVENT, "    "⟩] ∧
      ¬ right_justified 4 (-1) "    " :=
  ⟨_, rfl, by decide, by unfold right_justified; decide⟩

/-- C10 (amended). `log_event` takes `NO_DATA` (-1) for an absent field. A call
that does not overrun its buffers appends the line made of its id, the queue
field, the event name and the value field, where the queue field is four blanks
for `q = -1` and else `Q=` followed by `q` right-justified in 2 characters, and
the value field is four blanks for `n = -1` and else `n` right-justified in 4
characters; for `q` from -9 to 99 and `n` from -999 to 9999 the call does not
overrun. For such `n` (and queue sizes up to 99) the Work line of
`tman_publish(n)`, the Sleep line of `tman_sleep(n)` and the Recieve line of a
dequeued item `n` carry that value field, and so does the Complete line of a
dequeued item other than -1. A worker that dequeues -1 logs the Recieve line
with a blank value field and leaves its loop: no Complete line is written for
it. -/
theorem optional_fields_rendered (w : World) (sub : tsub_t) (q n : Int) :
    (∀ id event conf2, log_event w.manager.config id q event n = some conf2 →
      ∃ qs ns, conf2.logfile = w.manager.config.logfile ++ [⟨id, qs, event, ns⟩] ∧
        shows_size q qs ∧ shows_value n ns) ∧
    (-9 ≤ q → q ≤ 99 → -999 ≤ n → n ≤ 9999 → ∀ id event, event ≠ COMPLETE_EVENT →
      ∃ conf2, log_event w.manager.config id q event n = some conf2) ∧
    (-999 ≤ n → n ≤ 9999 →
      (∀ xs, Holds w.heap w.manager.config.buffer xs →
        qsize w.manager.config.buffer ≤ 99 → w.manager.config.max_buffer_size < UINT32_MOD →
        ∃ r qs ns, tman_publish w n = some r ∧
          r.world.manager.config.logfile = w.manager.config.logfile ++
            [⟨0, qs, WORK_EVENT, ns⟩] ∧ shows_value n ns) ∧
      (∃ w2 ns, tman_sleep w n = some w2 ∧
        w2.manager.config.logfile = w.manager.config.logfile ++
          [⟨0, "    ", SLEEP_EVENT, ns⟩] ∧ shows_value n ns) ∧
      (∀ xs, Holds w.heap w.manager.config.buffer (n :: xs) → xs.length ≤ 99 →
        ∃ w2 qs ns, consumer_request w sub = some (Call.returned n w2) ∧
          w2.manager.config.logfile = w.manager.config.logfile ++
            [⟨sub.id, "    ", ASK_EVENT, "    "⟩, ⟨sub.id, qs, RECIEVE_EVENT, ns⟩] ∧
          shows_value n ns) ∧
      (n ≠ NO_DATA →
        ∀ c, w.manager.config.thread_reports[(sub.id + UINT32_MOD - 1) % UINT32_MOD]? = some c →
        ∃ w2 ns, consumer_complete w sub n = some w2 ∧
          w2.manager.config.logfile = w.manager.config.logfile ++
            [⟨sub.id, "    ", COMPLETE_EVENT, ns⟩] ∧ right_justified 4 n ns)) ∧
    (∀ (s : Sys) (i : Nat) (xs : List Int), s.workers[i]? = some ⟨sub, wpc.requesting⟩ →
      Holds s.world.heap s.world.manager.config.buffer (NO_DATA :: xs) → xs.length ≤ 99 →
      ∃ s2 qs, step s (Action.request i) = some s2 ∧
        s2.world.manager.config.logfile = s.world.manager.config.logfile ++
          [⟨sub.id, qs, RECIEVE_EVENT, "    "⟩] ∧
        s2.workers[i]? = some ⟨sub, wpc.exited⟩ ∧
        step s2 (Action.complete i) = none) := by
  refine ⟨?_, ?_, ?_, ?_⟩
  · intro id event conf2 hl
    obtain ⟨qs, ns, conf1, hqs, hns, hr, hconf⟩ := log_event_inv _ _ _ _ _ _ hl
    have hlog : conf1.logfile = w.manager.config.logfile := by
      unfold log_event_to_report at hr
      split_ifs at hr
      · cases hr; rfl
      · cases hr; rfl
      · cases hr; rfl
      · cases hc : w.manager.config.thread_reports[(id + UINT32_MOD - 1) % UINT32_MOD]? with
        | none => rw [hc] at hr; exact Option.noConfusion hr
        | some c => rw [hc] at hr; cases hr; rfl
      · cases hr; rfl
      · cases hr; rfl
    refine ⟨qs, ns, ?_, qstr_of_inv q qs hqs, nstr_of_inv n ns hns⟩
    rw [hconf, ← hlog]
  · intro hq1 hq2 hn1 hn2 id event hev
    obtain ⟨qs, hqs, _⟩ := qstr_of_some q hq1 hq2
    obtain ⟨ns, hns, _⟩ := nstr_of_some n hn1 hn2
    obtain ⟨conf1, hr⟩ := report_defined w.manager.config id event hev
    exact ⟨_, by rw [log_event_eq _ id q n event qs ns hqs hns, hr]⟩
  · intro hn1 hn2
    refine ⟨?_, ?_, ?_, ?_⟩
    · intro xs hq h99 hcap
      by_cases hlt : qsize w.manager.config.buffer < w.manager.config.max_buffer_size
      · obtain ⟨w2, qt, ns, hp, _, _, hl, _, hns⟩ := tman_publish_push w n xs hq hlt hcap h99 hn1 hn2
        exact ⟨_, _, ns, hp, hl, nstr_of_inv n ns hns⟩
      · obtain ⟨w2, qt, ns, hp, _, _, _, hl, _, hns⟩ :=
          tman_publish_wait w n (by omega) h99 hn1 hn2
        exact ⟨_, _, ns, hp, hl, nstr_of_inv n ns hns⟩
    · obtain ⟨ns, hns, _⟩ := nstr_of_some n hn1 hn2
      refine ⟨⟨w.heap, { w.manager with config := { w.manager.config with
          master_report :=
            { w.manager.config.master_report with
              sleeps := (w.manager.config.master_report.sleeps + 1) % UINT32_MOD },
          logfile := w.manager.config.logfile ++ [⟨0, "    ", SLEEP_EVENT, ns⟩] } }⟩, ns, ?_, rfl,
        nstr_of_inv n ns hns⟩
      simp only [tman_sleep, log_event_sleep _ _ _ _ _ _ qstr_of_no_data hns]
    · intro xs hq h99
      obtain ⟨w2, qt, ns, hc, _, _, _, hl, _, hns⟩ := consumer_request_pop w sub n xs hq h99 hn1 hn2
      exact ⟨w2, _, ns, hc, hl, nstr_of_inv n ns hns⟩
    · intro hne c hc
      obtain ⟨ns, hns, hr⟩ := nstr_of_number n hne hn1 hn2
      refine ⟨⟨w.heap, { w.manager with config := { w.manager.config with
          master_report :=
            { w.manager.config.master_report with
              completes := (w.manager.config.master_report.completes + 1) % UINT32_MOD },
          thread_reports :=
            w.manager.config.thread_reports.set ((sub.id + UINT32_MOD - 1) % UINT32_MOD)
              ((c + 1) % UINT16_MOD),
          logfile := w.manager.config.logfile ++ [⟨sub.id, "    ", COMPLETE_EVENT, ns⟩] } }⟩,
        ns, ?_, rfl, hr⟩
      simp only [consumer_complete, log_event_complete_eq _ _ _ _ _ _ qstr_of_no_data hns, hc]
  · intro s i xs hw hq h99
    obtain ⟨w2, qt, ns, hc, hl, _, hns⟩ := consumer_request_locked_pop s.world sub NO_DATA xs hq h99
      (by decide) (by decide)
    have hns2 : ns = "    " := by
      rw [nstr_of_no_data] at hns
      exact (Option.some.inj hns).symm
    subst hns2
    have hlt : i < s.workers.length := by
      by_contra hge
      rw [List.getElem?_eq_none (by omega)] at hw
      exact Option.noConfusion hw
    have hne : ¬ (NO_DATA ≠ NO_DATA) := fun h => h rfl
    refine ⟨{ s with world := w2, workers := s.workers.set i ⟨sub, wpc.exited⟩ }, _, ?_, hl, ?_, ?_⟩
    · simp only [step, hw, hc, hne, if_false]
    · show (s.workers.set i ⟨sub, wpc.exited⟩)[i]? = _
      rw [List.getElem?_set_self hlt]
    · have : (s.workers.set i ⟨sub, wpc.exited⟩)[i]? = some ⟨sub, wpc.exited⟩ := by
        rw [List.getElem?_set_self hlt]
      simp only [step, this]

/-- Witness of C10 (amended): queue size 3 and item 42 on a one-worker manager
whose queue holds 42, and a worker dequeuing -1. -/
theorem optional_fields_rendered_witness :
    (∃ conf2, log_event (⟨[], 4, ⟨1, Ptr.addr 1, Ptr.addr 1⟩, ⟨1, 0, 0, 0, 0⟩, [0]⟩ : tconf_t) 1 3
        WORK_EVENT 42 = some conf2) ∧
    (∃ r qs ns, tman_publish
        ⟨[(1, ⟨Ptr.indet, 42⟩)], ⟨1, ⟨[], 4, ⟨1, Ptr.addr 1, Ptr.addr 1⟩, ⟨1, 0, 0, 0, 0⟩, [0]⟩,
          false⟩⟩ 42 = some r ∧
      r.world.manager.config.logfile = [] ++ [⟨0, qs, WORK_EVENT, ns⟩] ∧ shows_value 42 ns) ∧
    (∃ w2 qs ns, consumer_request
        ⟨[(1, ⟨Ptr.indet, 42⟩)], ⟨1, ⟨[], 4, ⟨1, Ptr.addr 1, Ptr.addr 1⟩, ⟨1, 0, 0, 0, 0⟩, [0]⟩,
          false⟩⟩ ⟨1⟩ = some (Call.returned 42 w2) ∧
      w2.manager.config.logfile = [] ++
        [⟨1, "    ", ASK_EVENT, "    "⟩, ⟨1, qs, RECIEVE_EVENT, ns⟩] ∧ shows_value 42 ns) ∧
    (∃ w2 ns, consumer_complete
        ⟨[(1, ⟨Ptr.indet, 42⟩)], ⟨1, ⟨[], 4, ⟨1, Ptr.addr 1, Ptr.addr 1⟩, ⟨1, 0, 0, 0, 0⟩, [0]⟩,
          false⟩⟩ ⟨1⟩ 42 = some w2 ∧
      w2.manager.config.logfile = [] ++ [⟨1, "    ", COMPLETE_EVENT, ns⟩] ∧
      right_justified 4 42 ns) ∧
    (∃ s2 qs, step
        ⟨⟨[(1, ⟨Ptr.indet, -1⟩)],
            ⟨1, ⟨[], 4, ⟨1, Ptr.addr 1, Ptr.addr 1⟩, ⟨1, 0, 0, 0, 0⟩, [0]⟩, false⟩⟩,
          ppc.running, [⟨⟨1⟩, wpc.requesting⟩]⟩ (Action.request 0) = some s2 ∧
      s2.world.manager.config.logfile = [] ++ [⟨1, qs, RECIEVE_EVENT, "    "⟩] ∧
      s2.workers[0]? = some ⟨⟨1⟩, wpc.exited⟩ ∧
      step s2 (Action.complete 0) = none) :=
  have hq : Holds [(1, ⟨Ptr.indet, 42⟩)] ⟨1, Ptr.addr 1, Ptr.addr 1⟩ [42] :=
    ⟨rfl, [1], by decide, by simp [Chain, load], by simp, by simp⟩
  have hq1 : Holds [(1, ⟨Ptr.indet, -1⟩)] ⟨1, Ptr.addr 1, Ptr.addr 1⟩ [NO_DATA] :=
    ⟨rfl, [1], by decide, by simp [Chain, load, NO_DATA], by simp, by simp⟩
  have t := optional_fields_rendered
    ⟨[(1, ⟨Ptr.indet, 42⟩)], ⟨1, ⟨[], 4, ⟨1, Ptr.addr 1, Ptr.addr 1⟩, ⟨1, 0, 0, 0, 0⟩, [0]⟩,
      false⟩⟩ ⟨1⟩ 3 42
  ⟨t.2.1 (by decide) (by decide) (by decide) (by decide) 1 WORK_EVENT (by decide),
   (t.2.2.1 (by decide) (by decide)).1 [42] hq (by decide) (by decide),
   (t.2.2.1 (by decide) (by decide)).2.2.1 [] hq (by decide),
   (t.2.2.1 (by decide) (by decide)).2.2.2 (by decide) 0 rfl,
   t.2.2.2
     ⟨⟨[(1, ⟨Ptr.indet, -1⟩)],
         ⟨1, ⟨[], 4, ⟨1, Ptr.addr 1, Ptr.addr 1⟩, ⟨1, 0, 0, 0, 0⟩, [0]⟩, false⟩⟩,
       ppc.running, [⟨⟨1⟩, wpc.requesting⟩]⟩ 0 [] rfl hq1 (by decide)⟩

end ProdCon
